import Mathlib

/-!
Verification development for `src/cache.py`: a multi-level write-back LRU
cache hierarchy with an optional persistent backing store.

The embedding is a direct shallow translation of the Python source:

* `CVal` models `Cache._Val` (a dirty flag bound to a value).
* `CacheData` models the per-layer state of a `Cache` object: `capacity`
  (`self._capacity`), `cache` (`self._cache`, an `OrderedDict` modelled as an
  ordered association list, oldest/LRU first), and `modify_key`
  (`self._modify_key`, the pending dirty-mark slot).
* `StoreData` models a `BackingStore`: `capacity`, `db` (`self._db`; `none`
  when closed, otherwise the shelve contents as an ordered association list
  in insertion order — the shelve's iteration order is determinised this
  way), and `nondirty_map` (`self._nondirty_map`; only key membership is
  ever consulted by the source).
* `Chain d` models a linked chain of `d` cache layers (top first) ending in
  either no lower memory (`nilC`, Python `lower_mem is None`) or a backing
  store (`bsC`).  The `_upper_mem` back-pointers of the source are
  represented implicitly: an upward notification is returned to the caller
  as a list of fired keys and applied to each enclosing layer, which is
  observationally identical in the single-threaded source.

Capacities are `Int` because the Python setters accept any integer.
Machine-level behaviour (shelve I/O, weak references) is out of scope; all
operations are pure state transformers returning `Except Err α × state`,
where an error result carries the state at the point the exception was
raised (Python exceptions do not roll back mutations).
-/

deriving instance DecidableEq for Except

namespace CacheSpec

abbrev Key := String

/-- Error taxonomy of `src/cache.py`: `CacheMiss`, `NoBStoreError`,
`BStoreClosedError`, Python `KeyError`, `ValueError`, `TypeError`. -/
inductive Err where
  | cacheMiss
  | noBStore
  | bstoreClosed
  | keyErr
  | valueError
  | typeError
  deriving DecidableEq, Repr

/-- `Cache._Val`: a value wrapped with its dirty flag. -/
structure CVal where
  dirty : Bool
  val : Nat
  deriving DecidableEq, Repr

/-! ### Ordered-dictionary primitives

`List (Key × α)` in insertion order models Python's `dict` / `OrderedDict`:
setting an existing key updates the value in place (keeping its position),
setting a new key appends at the end. -/

/-- Membership test on the keys of an association list. -/
def hasKey (k : Key) (l : List (Key × α)) : Bool :=
  l.any (fun p => p.1 == k)

/-- `d[k]` lookup (first occurrence). -/
def odGet (k : Key) : List (Key × α) → Option α
  | [] => none
  | (k', v) :: tl => if k' == k then some v else odGet k tl

/-- `d.pop(k)` / `del d[k]`: remove the first occurrence of key `k`. -/
def odErase (k : Key) : List (Key × α) → List (Key × α)
  | [] => []
  | (k', v) :: tl => if k' == k then tl else (k', v) :: odErase k tl

/-- `d.pop(k)` returning the removed value and the remaining list;
`none` models the `KeyError` on absence. -/
def odPop (k : Key) : List (Key × α) → Option (α × List (Key × α))
  | [] => none
  | (k', v) :: tl =>
    if k' == k then some (v, tl)
    else
      match odPop k tl with
      | none => none
      | some (x, rest) => some (x, (k', v) :: rest)

/-- `d[k] = v`: update in place if present, else append at the MRU end. -/
def odSet (k : Key) (v : α) : List (Key × α) → List (Key × α)
  | [] => [(k, v)]
  | (k', v') :: tl => if k' == k then (k, v) :: tl else (k', v') :: odSet k v tl

/-- `d.update(pairs)`: sequential `odSet` of each pair. -/
def odUpdate (l : List (Key × α)) (pairs : List (Key × α)) : List (Key × α) :=
  pairs.foldl (fun acc p => odSet p.1 p.2 acc) l

/-- `dict(pairs)`: build a dict by sequential insertion. -/
def odOfList (pairs : List (Key × α)) : List (Key × α) :=
  odUpdate [] pairs

/-! ### Backing store (`class BackingStore`) -/

/-- State of a `BackingStore` object. `db = none` iff the store is closed. -/
structure StoreData where
  capacity : Int
  db : Option (List (Key × Nat))
  nondirty_map : List (Key × Nat)
  deriving DecidableEq, Repr

/-- `BackingStore.popitem` (src/cache.py:328-353).  Scans the keys in
iteration order for one absent from the nondirty map and pops it directly;
otherwise pops the first item and notifies upward (`item[0]` returned as the
fired notification key).  Raises `BStoreClosedError` when closed and
`KeyError` when empty (the `MutableMapping.popitem` mixin behaviour). -/
def bsPopitem (bs : StoreData) :
    Except Err (Key × Nat) × StoreData × Option Key :=
  match bs.db with
  | none => (.error .bstoreClosed, bs, none)
  | some l =>
    match l.find? (fun p => !(hasKey p.1 bs.nondirty_map)) with
    | some (k, v) => (.ok (k, v), { bs with db := some (odErase k l) }, none)
    | none =>
      match l with
      | [] => (.error .keyErr, bs, none)
      | (k, v) :: tl => (.ok (k, v), { bs with db := some tl }, some k)

/-- The eviction loop of `BackingStore.__setitem__`
(`while len(self._db) >= self._capacity: self.popitem()`), unrolled into the
exact number of iterations the `while` performs (each successful `popitem`
removes exactly one entry).  Accumulates notification keys in firing order. -/
def bsEvict : Nat → StoreData → Except Err Unit × StoreData × List Key
  | 0, bs => (.ok (), bs, [])
  | n + 1, bs =>
    let p := bsPopitem bs
    match p.1 with
    | .error e => (.error e, p.2.1, [])
    | .ok _ =>
      let q := bsEvict n p.2.1
      (q.1, q.2.1, p.2.2.toList ++ q.2.2)

/-- `BackingStore.__setitem__` (src/cache.py:154-169): raise when closed,
evict while `len >= capacity`, then set the key. -/
def bsSetitem (k : Key) (v : Nat) (bs : StoreData) :
    Except Err Unit × StoreData × List Key :=
  match bs.db with
  | none => (.error .bstoreClosed, bs, [])
  | some l =>
    let p := bsEvict (((l.length : Int) + 1 - bs.capacity).toNat) bs
    match p.1 with
    | .error e => (.error e, p.2.1, p.2.2)
    | .ok _ =>
      match p.2.1.db with
      | none => (.error .bstoreClosed, p.2.1, p.2.2)
      | some l' => (.ok (), { p.2.1 with db := some (odSet k v l') }, p.2.2)

/-- `BackingStore._trim_to_capacity` (src/cache.py:48-53): while the open
store is over capacity, pop raw items from the front (`self._db.popitem()`,
no nondirty scan, no notification).  No-op when closed. -/
def bsRawPopN : Nat → List (Key × Nat) → Except Err Unit × List (Key × Nat)
  | 0, l => (.ok (), l)
  | _ + 1, [] => (.error .keyErr, [])
  | n + 1, _ :: tl => bsRawPopN n tl

/-- `BackingStore.capacity` setter (src/cache.py:103-106): store the new
capacity unconditionally, then trim when open. -/
def bsCapSet (newCap : Int) (bs : StoreData) : Except Err Unit × StoreData :=
  let bs' : StoreData := { bs with capacity := newCap }
  match bs'.db with
  | none => (.ok (), bs')
  | some l =>
    let p := bsRawPopN ((l.length : Int) - newCap).toNat l
    (p.1, { bs' with db := some p.2 })

/-- `BackingStore.__init__` (src/cache.py:67-85): reject `capacity < 1`,
start closed with an empty nondirty map. -/
def bsInit (capacity : Int) : Except Err StoreData :=
  if capacity < 1 then .error .valueError
  else .ok { capacity := capacity, db := none, nondirty_map := [] }

/-! ### The chain of memory layers (`class Cache`) -/

/-- State of one `Cache` object, minus its links (`_lower_mem`/`_upper_mem`
are encoded by the position in a `Chain`). -/
structure CacheData where
  capacity : Int
  cache : List (Key × CVal)
  modify_key : Option Key
  deriving DecidableEq, Repr

/-- A chain of `d` cache layers (top first) over a terminal lower memory:
`nilC` for `lower_mem is None`, `bsC` for a terminal `BackingStore`. -/
inductive Chain : Nat → Type where
  | nilC : Chain 0
  | bsC : StoreData → Chain 0
  | consC : CacheData → {d : Nat} → Chain d → Chain (d + 1)
  deriving DecidableEq, Repr

/-- The top layer of a nonempty chain. -/
def topCache : Chain (d + 1) → CacheData
  | .consC c _ => c

/-- The chain below the top layer. -/
def lowerChain : Chain (d + 1) → Chain d
  | .consC _ low => low

/-- `Cache._modify_dirty_if_notified` (src/cache.py:593-605): if the pending
dirty-mark slot holds a key present in this layer, flip that entry's dirty
flag to `true` and clear the slot; if the key is absent the `KeyError` is
swallowed and the slot is left as it was. -/
def modifyDirtyIfNotified (c : CacheData) : CacheData :=
  match c.modify_key with
  | none => c
  | some mk =>
    match odGet mk c.cache with
    | none => c
    | some item =>
      { c with cache := odSet mk ⟨true, item.val⟩ c.cache, modify_key := none }

/-- Overwrite of the pending dirty-mark slot by the notifications fired
during a call, in firing order (each `mem._modify_key = key` assignment in
`BackingStore._notify_modify_dirty_above_for` overwrites the slot, so the
last fired key wins, and an empty list leaves the slot untouched). -/
def applyNotifs (ns : List Key) (mk : Option Key) : Option Key :=
  match ns.getLast? with
  | some k => some k
  | none => mk

/-- Generic eviction loop of `Cache._setitem`
(`while len(self._cache) >= self._capacity`), unrolled to the exact number
of iterations the `while` performs (each iteration pops exactly one entry
from the LRU/front end).  `push` performs the demotion of the popped entry
into the lower memory `s`; popping an empty mapping raises `KeyError`
(`OrderedDict.popitem` on an empty dict).  Notification keys fired by the
demotions are accumulated in firing order. -/
def evictLoop (push : Key → Nat → Bool → σ → Except Err Unit × σ × List Key) :
    Nat → List (Key × CVal) → σ →
    Except Err Unit × List (Key × CVal) × σ × List Key
  | 0, cache, s => (.ok (), cache, s, [])
  | _ + 1, [], s => (.error .keyErr, [], s, [])
  | n + 1, (k, e) :: tl, s =>
    let p := push k e.val e.dirty s
    match p.1 with
    | .error er => (.error er, tl, p.2.1, p.2.2)
    | .ok _ =>
      let q := evictLoop push n tl p.2.1
      (q.1, q.2.1, q.2.2.1, p.2.2 ++ q.2.2.2)

/-- `Cache._setitem` (src/cache.py:607-631) together with the lower-memory
dispatch of its eviction loop.  At depth `0` this is the demotion target
itself: `lower_mem is None` discards the entry, a `BackingStore` receives
`self._lower_mem[k] = v.val` iff the entry is dirty (the `AttributeError`
branch of the source).  At depth `d + 1` it is the cache insertion: pop the
key if present (no eviction loop in that case), otherwise evict while
`len >= capacity` pushing each LRU entry down, then insert `(k, v, dirty)`
at the MRU end, fold the notifications fired during the body into the
pending dirty-mark slot, and run `_modify_dirty_if_notified`. -/
def csetitem : (d : Nat) → Key → Nat → Bool → Chain d →
    Except Err Unit × Chain d × List Key
  | 0, _, _, _, .nilC => (.ok (), .nilC, [])
  | 0, k, v, b, .bsC bs =>
    if b then
      let p := bsSetitem k v bs
      (p.1, .bsC p.2.1, p.2.2)
    else (.ok (), .bsC bs, [])
  | d + 1, k, v, b, .consC c low =>
    match odPop k c.cache with
    | some (_, rest) =>
      let c' : CacheData := { c with cache := odSet k ⟨b, v⟩ rest }
      (.ok (), .consC (modifyDirtyIfNotified c') low, [])
    | none =>
      let p := evictLoop (csetitem d)
        (((c.cache.length : Int) + 1 - c.capacity).toNat) c.cache low
      match p.1 with
      | .error e =>
        (.error e,
         .consC { c with cache := p.2.1,
                         modify_key := applyNotifs p.2.2.2 c.modify_key }
           p.2.2.1, p.2.2.2)
      | .ok _ =>
        let c' : CacheData :=
          { c with cache := odSet k ⟨b, v⟩ p.2.1,
                   modify_key := applyNotifs p.2.2.2 c.modify_key }
        (.ok (), .consC (modifyDirtyIfNotified c') p.2.2.1, p.2.2.2)

/-- `Cache._recurs_pop_unless_from_bs` (src/cache.py:563-591): pop the key
from this layer; on miss recurse into a lower cache; at a terminal
`BackingStore` do a non-removing read (`self.lower_mem[key]`, raising
`BStoreClosedError` when closed and turning `KeyError` into `CacheMiss`);
with no lower memory raise `CacheMiss`.  Returns the value and the
`from_bstore` flag.  The depth-0 cases are unreachable from the public
entry points (which start at a cache layer). -/
def recursPop : (d : Nat) → Key → Chain d → Except Err (Nat × Bool) × Chain d
  | 0, _, .nilC => (.error .cacheMiss, .nilC)
  | 0, key, .bsC bs =>
    match bs.db with
    | none => (.error .bstoreClosed, .bsC bs)
    | some l =>
      match odGet key l with
      | some v => (.ok (v, true), .bsC bs)
      | none => (.error .cacheMiss, .bsC bs)
  | d + 1, key, .consC c low =>
    match odPop key c.cache with
    | some (item, rest) =>
      (.ok (item.val, false), .consC { c with cache := rest } low)
    | none =>
      let p := recursPop d key low
      (p.1, .consC c p.2)

/-- Does the chain terminate in a backing store
(`Cache._is_lowest_mem_bstore`)? -/
def isLowestBstore : {d : Nat} → Chain d → Bool
  | _, .nilC => false
  | _, .bsC _ => true
  | _, .consC _ low => isLowestBstore low

/-- The clean-snapshot walk of `Cache._send_bs_nondirties`
(src/cache.py:633-652): starting from the accumulator `dict([*more])`,
update it layer by layer (top down) with every `(k, v.val)` whose dirty
flag is false. -/
def collectNondirty : {d : Nat} → Chain d → List (Key × Nat) →
    List (Key × Nat)
  | _, .nilC, acc => acc
  | _, .bsC _, acc => acc
  | _, .consC c low, acc =>
    collectNondirty low
      (odUpdate acc ((c.cache.filter (fun p => !p.2.dirty)).map
        (fun p => (p.1, p.2.val))))

/-- Replace the terminal store's nondirty map. -/
def setNondirty : {d : Nat} → List (Key × Nat) → Chain d → Chain d
  | _, _, .nilC => .nilC
  | _, m, .bsC bs => .bsC { bs with nondirty_map := m }
  | _, m, .consC c low => .consC c (setNondirty m low)

/-- `Cache._send_bs_nondirties(*more)`: when the lowest memory is a backing
store, install the clean snapshot (seeded with the extra pairs `more`) as
its nondirty map; otherwise a no-op. -/
def sendBsNondirties (more : List (Key × Nat)) (ch : Chain d) : Chain d :=
  if isLowestBstore ch then setNondirty (collectNondirty ch (odOfList more)) ch
  else ch

/-- `Cache.__getitem__` (src/cache.py:755-777), with the notification keys
that would escape to layers above the top returned as the third component:
probe-and-remove via `_recurs_pop_unless_from_bs`, compute the dirty flag
(`False` iff the value came from the backing store), refresh the store's
nondirty map seeded with `(key, item)`, and reinsert at this layer. -/
def getitemN (key : Key) (ch : Chain (d + 1)) :
    Except Err Nat × Chain (d + 1) × List Key :=
  let p := recursPop (d + 1) key ch
  match p.1 with
  | .error e => (.error e, p.2, [])
  | .ok (item, fromBs) =>
    let ch'' := sendBsNondirties [(key, item)] p.2
    let q := csetitem (d + 1) key item (!fromBs) ch''
    match q.1 with
    | .error e => (.error e, q.2.1, q.2.2)
    | .ok _ => (.ok item, q.2.1, q.2.2)

/-- `Cache.__getitem__` as observed by the caller. -/
def getitem (key : Key) (ch : Chain (d + 1)) : Except Err Nat × Chain (d + 1) :=
  ((getitemN key ch).1, (getitemN key ch).2.1)

/-- `Cache.__setitem__` (src/cache.py:779-797), with escaping notification
keys: probe-and-remove (a `CacheMiss` is swallowed and contributes no extra
pair), refresh the nondirty map, then `_setitem(key, val)` with the default
dirty flag `True`. -/
def setitemTopN (key : Key) (v : Nat) (ch : Chain (d + 1)) :
    Except Err Unit × Chain (d + 1) × List Key :=
  let p := recursPop (d + 1) key ch
  match p.1 with
  | .error .cacheMiss => csetitem (d + 1) key v true (sendBsNondirties [] p.2)
  | .error e => (.error e, p.2, [])
  | .ok (item, _) =>
    csetitem (d + 1) key v true (sendBsNondirties [(key, item)] p.2)

/-- `Cache.__setitem__` as observed by the caller. -/
def setitemTop (key : Key) (v : Nat) (ch : Chain (d + 1)) :
    Except Err Unit × Chain (d + 1) :=
  ((setitemTopN key v ch).1, (setitemTopN key v ch).2.1)

/-- `Cache.popitem(last=False)` as used by the capacity setter: pop the
LRU/front entry of this layer only, `KeyError` on empty. -/
def cachePopFirstN : Nat → CacheData → Except Err Unit × CacheData
  | 0, c => (.ok (), c)
  | n + 1, c =>
    match c.cache with
    | [] => (.error .keyErr, c)
    | _ :: tl => cachePopFirstN n { c with cache := tl }

/-- `Cache.capacity` setter (src/cache.py:738-744): store the new capacity,
then pop `len - capacity` entries from the LRU/front end when positive. -/
def capSet (newCap : Int) (c : CacheData) : Except Err Unit × CacheData :=
  let c' : CacheData := { c with capacity := newCap }
  cachePopFirstN ((c'.cache.length : Int) - newCap).toNat c'

/-- `Cache.__init__` (src/cache.py:677-720) for a list-shaped `init_values`:
reject `capacity < 1`, then build the ordered mapping with every seeded
entry dirty.  No trimming to capacity is performed. -/
def cacheInit (capacity : Int) (init : List (Key × Nat)) :
    Except Err CacheData :=
  if capacity < 1 then .error .valueError
  else .ok { capacity := capacity,
             cache := odOfList (init.map (fun p => (p.1, (⟨true, p.2⟩ : CVal)))),
             modify_key := none }

/-- `Cache.update` (src/cache.py:959-967): `self._cache.update(other._items())`,
a plain ordered-dict update with no eviction or trimming. -/
def cacheUpdate (c : CacheData) (otherItems : List (Key × CVal)) : CacheData :=
  { c with cache := odUpdate c.cache otherItems }

/-- Auxiliary recursion for `chainPopitem`: run `BackingStore.popitem` on
the terminal store and propagate the fired notification key (if any) upward,
setting each traversed cache layer's pending dirty-mark slot to it. -/
def chainPopitemAux : {d : Nat} → Chain d →
    Except Err (Key × Nat) × Chain d × Option Key
  | _, .nilC => (.error .noBStore, .nilC, none)
  | _, .bsC bs =>
    let p := bsPopitem bs
    (p.1, .bsC p.2.1, p.2.2)
  | _, .consC c low =>
    let p := chainPopitemAux low
    match p.2.2 with
    | some k => (p.1, .consC { c with modify_key := some k } p.2.1, some k)
    | none => (p.1, .consC c p.2.1, none)

/-- `BackingStore.popitem` invoked on the terminal store of a chain, with
`_notify_modify_dirty_above_for` walking every upper cache layer. -/
def chainPopitem (ch : Chain d) : Except Err (Key × Nat) × Chain d :=
  ((chainPopitemAux ch).1, (chainPopitemAux ch).2.1)

/-! ### Observations on chains -/

/-- Keys of a cache layer in LRU-to-MRU order. -/
def cacheKeys (c : CacheData) : List Key :=
  c.cache.map Prod.fst

/-- The cache layers of a chain, top down. -/
def layerList : {d : Nat} → Chain d → List CacheData
  | _, .nilC => []
  | _, .bsC _ => []
  | _, .consC c low => c :: layerList low

/-- The terminal backing store of a chain, if any. -/
def storeOf : {d : Nat} → Chain d → Option StoreData
  | _, .nilC => none
  | _, .bsC bs => some bs
  | _, .consC _ low => storeOf low

/-- The key sequences of all cache layers, top down. -/
def layerKeys (ch : Chain d) : List (List Key) :=
  (layerList ch).map cacheKeys

/-- The contents of the terminal store, `none` when absent or closed. -/
def storeDb (ch : Chain d) : Option (List (Key × Nat)) :=
  match storeOf ch with
  | none => none
  | some bs => bs.db

/-- Is `k` present in some cache layer of the chain? -/
def inCaches (k : Key) (ch : Chain d) : Bool :=
  (layerList ch).any (fun c => hasKey k c.cache)

/-- The value of `k` at the first (topmost) cache layer containing it. -/
def findVal : {d : Nat} → Key → Chain d → Option Nat
  | _, _, .nilC => none
  | _, _, .bsC _ => none
  | _, k, .consC c low =>
    match odGet k c.cache with
    | some e => some e.val
    | none => findVal k low

/-- Remove `k` from the first (topmost) cache layer containing it. -/
def eraseFirstInCaches : {d : Nat} → Key → Chain d → Chain d
  | _, _, .nilC => .nilC
  | _, _, .bsC bs => .bsC bs
  | _, k, .consC c low =>
    if hasKey k c.cache then .consC { c with cache := odErase k c.cache } low
    else .consC c (eraseFirstInCaches k low)

/-- Is `k` present in the (open) terminal store? -/
def storeHas (k : Key) (ch : Chain d) : Bool :=
  match storeDb ch with
  | none => false
  | some l => hasKey k l

/-- The value of `k` in the (open) terminal store. -/
def storeVal (k : Key) (ch : Chain d) : Option Nat :=
  match storeDb ch with
  | none => none
  | some l => odGet k l

/-- The bottom of the chain is not a closed store (no lower memory, or an
open store): the configurations in which a downward write cannot raise
`BStoreClosedError`. -/
def bottomOk : {d : Nat} → Chain d → Bool
  | _, .nilC => true
  | _, .bsC bs => bs.db.isSome
  | _, .consC _ low => bottomOk low

/-- Some cache layer is strictly below its capacity. -/
def hasSlack (ch : Chain d) : Bool :=
  (layerList ch).any (fun c => (c.cache.length : Int) < c.capacity)

/-- The length invariant of §8: every cache layer satisfies
`len ≤ capacity`, and so does the store when open. -/
def chainInv (ch : Chain d) : Prop :=
  (∀ c ∈ layerList ch, (c.cache.length : Int) ≤ c.capacity) ∧
  (∀ bs ∈ (storeOf ch).toList, ∀ l ∈ bs.db.toList,
    (l.length : Int) ≤ bs.capacity)

/-- Strictly positive capacities for every layer (chain validity, §2). -/
def capsPos (ch : Chain d) : Prop :=
  (∀ c ∈ layerList ch, 1 ≤ c.capacity) ∧
  (∀ bs ∈ (storeOf ch).toList, 1 ≤ bs.capacity)

/-- No cache layer has a pending dirty-mark. -/
def allMkNone (ch : Chain d) : Prop :=
  ∀ c ∈ layerList ch, c.modify_key = none

/-- Set every cache layer's pending dirty-mark slot to `k`. -/
def setAllMk : {d : Nat} → Key → Chain d → Chain d
  | _, _, .nilC => .nilC
  | _, _, .bsC bs => .bsC bs
  | _, k, .consC c low => .consC { c with modify_key := some k } (setAllMk k low)

/-- Replace the terminal store's contents. -/
def setDb : {d : Nat} → Option (List (Key × Nat)) → Chain d → Chain d
  | _, _, .nilC => .nilC
  | _, l, .bsC bs => .bsC { bs with db := l }
  | _, l, .consC c low => .consC c (setDb l low)

instance : DecidablePred (chainInv (d := d)) := fun ch => by
  unfold chainInv; infer_instance

instance : DecidablePred (capsPos (d := d)) := fun ch => by
  unfold capsPos; infer_instance

instance : DecidablePred (allMkNone (d := d)) := fun ch => by
  unfold allMkNone; infer_instance

/-! ### The spec-side insertion algorithm (for claim C2)

A second definition of the insertion algorithm, following the words of
§4.1 steps 1-3 of the spec (the text of claim C2), to be compared with the
source-derived `csetitem`.  It performs the duplicate removal, the
`len ≥ capacity` eviction loop with the three demotion dispatch rules, and
the final MRU insertion — and nothing else: no pending dirty-mark
consumption and no notification bookkeeping. -/

/-- Eviction loop following the claim's words: `while len(L) ≥ capacity(L)`,
pop the LRU entry and dispatch it to the lower layer. -/
def evictLoopS (push : Key → Nat → Bool → σ → Except Err Unit × σ) :
    Nat → List (Key × CVal) → σ → Except Err Unit × List (Key × CVal) × σ
  | 0, cache, s => (.ok (), cache, s)
  | _ + 1, [], s => (.error .keyErr, [], s)
  | n + 1, (k, e) :: tl, s =>
    let p := push k e.val e.dirty s
    match p.1 with
    | .error er => (.error er, tl, p.2)
    | .ok _ => evictLoopS push n tl p.2

/-- Spec-side insertion (claim C2): step 1 removes an existing entry for the
key (no eviction loop in that case); step 2 evicts while `len ≥ capacity`,
recursively inserting into a lower cache with the dirty flag propagated,
writing to a backing store iff dirty, and discarding when there is no lower
layer; step 3 inserts `(k, v, dirty)` at the MRU end. -/
def csetitemS : (d : Nat) → Key → Nat → Bool → Chain d →
    Except Err Unit × Chain d
  | 0, _, _, _, .nilC => (.ok (), .nilC)
  | 0, k, v, b, .bsC bs =>
    if b then
      let p := bsSetitem k v bs
      (p.1, .bsC p.2.1)
    else (.ok (), .bsC bs)
  | d + 1, k, v, b, .consC c low =>
    match odPop k c.cache with
    | some (_, rest) =>
      (.ok (), .consC { c with cache := odSet k ⟨b, v⟩ rest } low)
    | none =>
      let p := evictLoopS (csetitemS d)
        (((c.cache.length : Int) + 1 - c.capacity).toNat) c.cache low
      match p.1 with
      | .error e => (.error e, .consC { c with cache := p.2.1 } p.2.2)
      | .ok _ =>
        (.ok (), .consC { c with cache := odSet k ⟨b, v⟩ p.2.1 } p.2.2)

/-! ### Concrete chains used by individual claims -/

/-- A capacity-1 top cache holding a dirty entry over an open capacity-1
store holding `a`: promoting `a` forces the store to evict `a` itself with
an upward notification. -/
def c1chain : Chain 1 :=
  .consC ⟨1, [("x", ⟨true, 7⟩)], none⟩ (.bsC ⟨1, some [("a", 5)], []⟩)

/-- A publicly constructible chain violating the length invariant
(`Cache(1, [('x', 7), ('k', 5)])` over a closed store): its top layer was
seeded beyond capacity by `init_values`. -/
def c5chain : Chain 1 :=
  .consC ⟨1, [("x", ⟨true, 7⟩), ("k", ⟨true, 5⟩)], none⟩ (.bsC ⟨1, none, []⟩)

/-- Scenario 5 of the spec: `Cache(1) → Cache(2) → Store(3)`, store open
and empty. -/
def c8start : Chain 2 :=
  .consC ⟨1, [], none⟩ (.consC ⟨2, [], none⟩ (.bsC ⟨3, some [], []⟩))

/-- The chain of scenario 5 after storing `a..f` with values `1..6`. -/
def c8afterStores : Chain 2 :=
  (setitemTop "f" 6 (setitemTop "e" 5 (setitemTop "d" 4 (setitemTop "c" 3
    (setitemTop "b" 2 (setitemTop "a" 1 c8start).2).2).2).2).2).2

/-- The chain of scenario 5 after the subsequent `Lookup a`. -/
def c8afterLookup : Chain 2 := (getitem "a" c8afterStores).2

/-!
## Theorems

One theorem per claim of `CLAIMS.json` (plus counterexamples/witnesses),
preceded by the helper lemmas they build on.
-/

/-! ### C1 (counterexample) -/

/-- C1, counterexample.  The claim asserts that a key absent from every
cache layer but present in the backing store is inserted at the MRU end of
the top layer with `dirty = false`.  In `c1chain` the reinsertion of `a`
evicts the dirty entry `x` into the full store, whose `popitem` finds every
stored key (`a` itself) in the nondirty map, evicts `a` and notifies
upward; the pending dirty-mark is consumed by the very insertion of `a`, so
Lookup returns with the entry dirty, not clean. -/
theorem c1_counterexample :
    inCaches "a" c1chain = false ∧ storeHas "a" c1chain = true ∧
    (getitem "a" c1chain).1 = .ok 5 ∧
    (topCache (getitem "a" c1chain).2).cache = [("a", ⟨true, 5⟩)] ∧
    (topCache (getitem "a" c1chain).2).cache ≠ [("a", ⟨false, 5⟩)] := by
  decide

/-! ### C4 (counterexample) -/

/-- C4, counterexample.  Construction with `init_values` longer than the
capacity, and `update`, leave the mapping longer than the capacity: neither
trims, so `0 ≤ len ≤ capacity` does not hold after every public operation. -/
theorem c4_counterexample :
    cacheInit 1 [("a", 1), ("b", 2)] =
      .ok { capacity := 1,
            cache := [("a", ⟨true, 1⟩), ("b", ⟨true, 2⟩)],
            modify_key := none } ∧
    ¬ (((([("a", (⟨true, 1⟩ : CVal)), ("b", ⟨true, 2⟩)] :
          List (Key × CVal)).length : Int)) ≤ (1 : Int)) ∧
    (cacheUpdate { capacity := 1, cache := [("x", ⟨true, 9⟩)],
                   modify_key := none }
      [("a", ⟨true, 1⟩), ("b", ⟨true, 2⟩)]).cache.length = 3 := by
  decide

/-! ### C5 (counterexample) -/

/-- C5, counterexample.  On `c5chain` (a publicly constructible chain whose
top layer was seeded past its capacity over a closed store), `Store k 9`
first removes `k` from the top layer, then the reinsertion evicts the dirty
entry `x` into the closed store and raises `BStoreClosedError` — leaving
the chain changed (the top layer lost both entries and the nondirty map was
replaced).  `Lookup k` fails the same way with the top layer's ordering
changed. -/
theorem c5_counterexample :
    (setitemTop "k" 9 c5chain).1 = .error .bstoreClosed ∧
    (setitemTop "k" 9 c5chain).2 ≠ c5chain ∧
    (getitem "k" c5chain).1 = .error .bstoreClosed ∧
    layerKeys (getitem "k" c5chain).2 ≠ layerKeys c5chain := by
  decide

/-! ### C6 (code_bug): the capacity setter trims the LRU end -/

/-- C6.  Evaluation of `Cache.capacity = 4` at the failing input of the
repo's own `test_cap_change`: the code pops `popitem(last=False)`, removing
`foo` from the LRU/front end, whereas the claim (and the repo's test, which
expects `[foo, bar, blueberry, cherry]`) requires trimming from the MRU
end, i.e. removing `strawberry`. -/
theorem c6_code_eval :
    capSet 4 ⟨10, [("foo", ⟨true, 1⟩), ("bar", ⟨true, 2⟩),
                   ("blueberry", ⟨true, 1⟩), ("cherry", ⟨true, 3⟩),
                   ("strawberry", ⟨true, 2⟩)], none⟩ =
      (.ok (), ⟨4, [("bar", ⟨true, 2⟩), ("blueberry", ⟨true, 1⟩),
                    ("cherry", ⟨true, 3⟩), ("strawberry", ⟨true, 2⟩)], none⟩) ∧
    (capSet 4 ⟨10, [("foo", ⟨true, 1⟩), ("bar", ⟨true, 2⟩),
                    ("blueberry", ⟨true, 1⟩), ("cherry", ⟨true, 3⟩),
                    ("strawberry", ⟨true, 2⟩)], none⟩).2.cache ≠
      [("foo", ⟨true, 1⟩), ("bar", ⟨true, 2⟩),
       ("blueberry", ⟨true, 1⟩), ("cherry", ⟨true, 3⟩)] := by
  decide

/-! ### C7 (counterexample) -/

/-- C7, counterexample.  An insertion into a layer whose pending dirty-mark
slot holds a key absent from the layer leaves every flag unchanged but does
NOT clear the slot: `_modify_dirty_if_notified` catches the `KeyError`
before reaching the `self._modify_key = None` assignment, so the slot still
holds `z` after inserting `b`. -/
theorem c7_counterexample :
    (csetitem 1 "b" 2 true
      (.consC ⟨1, [("a", ⟨false, 1⟩)], some "z"⟩ .nilC)).1 = .ok () ∧
    (topCache (csetitem 1 "b" 2 true
      (.consC ⟨1, [("a", ⟨false, 1⟩)], some "z"⟩ .nilC)).2.1).modify_key =
      some "z" := by
  decide

/-! ### C8 (counterexample and amended) -/

/-- C8, counterexample.  The first half of the scenario holds (after storing
`a..f`: top `[(f,6)]`, middle `[(d,4),(e,5)]`, store `{a:1,b:2,c:3}`), and
`Lookup a` returns 1 and leaves the top `[(a,1)]` clean — but the middle
layer is NOT unchanged: the reinsertion of `a` evicts `f` into the middle
layer, which in turn demotes `d` into the store. -/
theorem c8_counterexample :
    c8afterStores =
      .consC ⟨1, [("f", ⟨true, 6⟩)], none⟩
        (.consC ⟨2, [("d", ⟨true, 4⟩), ("e", ⟨true, 5⟩)], none⟩
          (.bsC ⟨3, some [("a", 1), ("b", 2), ("c", 3)], []⟩)) ∧
    (getitem "a" c8afterStores).1 = .ok 1 ∧
    (topCache c8afterLookup).cache = [("a", ⟨false, 1⟩)] ∧
    (topCache (lowerChain c8afterLookup)).cache ≠
      [("d", ⟨true, 4⟩), ("e", ⟨true, 5⟩)] := by
  decide

/-- C8, amended.  The actual final state (in this embedding's determinised
store iteration order): `Lookup a` returns 1 with top `[(a, clean 1)]`; the
cascade moves `f` into the middle layer (now `[(e,5),(f,6)]`) and writes
`d` back into the store, whose `popitem` evicts an unprotected key (`b`) —
the store still holds `a`, which the nondirty map protects. -/
theorem c8_amended_state :
    (getitem "a" c8afterStores).1 = .ok 1 ∧
    c8afterLookup =
      .consC ⟨1, [("a", ⟨false, 1⟩)], none⟩
        (.consC ⟨2, [("e", ⟨true, 5⟩), ("f", ⟨true, 6⟩)], none⟩
          (.bsC ⟨3, some [("a", 1), ("c", 3), ("d", 4)], [("a", 1)]⟩)) ∧
    storeHas "a" c8afterLookup = true := by
  decide

/-! ### C10: the capacity setters perform no validation -/

theorem cachePopFirstN_res (n : Nat) (c : CacheData) :
    (cachePopFirstN n c).1 = .ok () ∨ (cachePopFirstN n c).1 = .error .keyErr := by
  induction n generalizing c with
  | zero => exact .inl rfl
  | succ n ih =>
    match h : c.cache with
    | [] => simp [cachePopFirstN, h]
    | _ :: tl => simpa [cachePopFirstN, h] using ih _

theorem cachePopFirstN_all (cap : Int) (mk : Option Key)
    (l : List (Key × CVal)) :
    cachePopFirstN l.length ⟨cap, l, mk⟩ = (.ok (), ⟨cap, [], mk⟩) := by
  induction l with
  | nil => rfl
  | cons hd tl ih => simpa [cachePopFirstN] using ih

theorem bsRawPopN_res (n : Nat) (l : List (Key × Nat)) :
    (bsRawPopN n l).1 = .ok () ∨ (bsRawPopN n l).1 = .error .keyErr := by
  induction n generalizing l with
  | zero => exact .inl rfl
  | succ n ih =>
    match l with
    | [] => simp [bsRawPopN]
    | _ :: tl => simpa [bsRawPopN] using ih tl

/-- C10.  Constructors reject non-positive capacities with `ValueError`, but
the capacity setters perform no validation: for every integer they can raise
at most a `KeyError` (never a configuration error); assigning capacity 0 to
a cache succeeds and trims it to empty, and assigning capacity 0 to a
closed backing store succeeds and leaves its contents untouched. -/
theorem c10_setter_no_validation :
    (∀ cap : Int, cap < 1 → cacheInit cap [] = .error .valueError) ∧
    (∀ cap : Int, cap < 1 → bsInit cap = .error .valueError) ∧
    (∀ (cap : Int) (c : CacheData),
      (capSet cap c).1 ≠ .error .valueError ∧
      (capSet cap c).1 ≠ .error .typeError) ∧
    (∀ (cap : Int) (bs : StoreData),
      (bsCapSet cap bs).1 ≠ .error .valueError ∧
      (bsCapSet cap bs).1 ≠ .error .typeError) ∧
    (∀ c : CacheData,
      capSet 0 c = (.ok (), ⟨0, [], c.modify_key⟩)) ∧
    (∀ bs : StoreData, bs.db = none →
      bsCapSet 0 bs = (.ok (), { bs with capacity := 0 })) := by
  refine ⟨fun cap h => ?_, fun cap h => ?_, fun cap c => ?_, fun cap bs => ?_,
    fun c => ?_, fun bs h => ?_⟩
  · simp [cacheInit, h]
  · simp [bsInit, h]
  · rcases cachePopFirstN_res (((c.cache.length : Int) - cap).toNat)
      { c with capacity := cap } with h | h <;>
      constructor <;> simp [capSet, h]
  · match hdb : bs.db with
    | none => simp [bsCapSet, hdb]
    | some l =>
      rcases bsRawPopN_res (((l.length : Int) - cap).toNat) l with h | h <;>
        constructor <;> simp [bsCapSet, hdb, h]
  · have : (((c.cache.length : Int) - 0).toNat) = c.cache.length := by
      simp
    simpa [capSet, this] using cachePopFirstN_all 0 c.modify_key c.cache
  · simp [bsCapSet, h]

/-- C10, witness. -/
theorem c10_witness :
    ((0 : Int) < 1 ∧ cacheInit 0 [] = .error .valueError) ∧
    capSet 0 (⟨7, [("a", ⟨true, 1⟩)], none⟩ : CacheData) =
      (.ok (), ⟨0, [], none⟩) ∧
    bsCapSet 0 (⟨5, none, []⟩ : StoreData) = (.ok (), ⟨0, none, []⟩) :=
  ⟨⟨by decide, c10_setter_no_validation.1 0 (by decide)⟩,
   c10_setter_no_validation.2.2.2.2.1 ⟨7, [("a", ⟨true, 1⟩)], none⟩,
   c10_setter_no_validation.2.2.2.2.2 ⟨5, none, []⟩ rfl⟩

/-! ### Toolbox: ordered-dictionary lemmas -/

theorem hasKey_cons {k k' : Key} {v : α} {tl : List (Key × α)} :
    hasKey k ((k', v) :: tl) = ((k' == k) || hasKey k tl) := by
  simp [hasKey]

theorem odPop_isSome (k : Key) (l : List (Key × α)) :
    (odPop k l).isSome = hasKey k l := by
  induction l with
  | nil => simp [odPop, hasKey]
  | cons hd tl ih =>
    obtain ⟨k', v⟩ := hd
    rw [odPop, hasKey_cons]
    by_cases h : (k' == k) = true
    · simp [h]
    · have hf : (k' == k) = false := by simpa using h
      rw [if_neg h, hf, Bool.false_or, ← ih]
      cases hpop : odPop k tl with
      | none => simp [hpop]
      | some p => cases p; simp [hpop]

theorem odPop_eq_none_of_hasKey_false {k : Key} {l : List (Key × α)}
    (h : hasKey k l = false) : odPop k l = none := by
  have := odPop_isSome k l
  rw [h] at this
  exact Option.not_isSome_iff_eq_none.mp (by simp [this])

theorem odGet_isSome (k : Key) (l : List (Key × α)) :
    (odGet k l).isSome = hasKey k l := by
  induction l with
  | nil => simp [odGet, hasKey]
  | cons hd tl ih =>
    obtain ⟨k', v⟩ := hd
    rw [odGet, hasKey_cons]
    by_cases h : (k' == k) = true
    · simp [h]
    · have hf : (k' == k) = false := by simpa using h
      rw [if_neg h, hf, Bool.false_or, ← ih]

theorem odGet_eq_none_of_hasKey_false {k : Key} {l : List (Key × α)}
    (h : hasKey k l = false) : odGet k l = none := by
  have := odGet_isSome k l
  rw [h] at this
  exact Option.not_isSome_iff_eq_none.mp (by simp [this])

theorem odPop_length {k : Key} {l : List (Key × α)} {x : α}
    {rest : List (Key × α)} (h : odPop k l = some (x, rest)) :
    l.length = rest.length + 1 := by
  induction l generalizing x rest with
  | nil => simp [odPop] at h
  | cons hd tl ih =>
    obtain ⟨k', v⟩ := hd
    rw [odPop] at h
    by_cases hk : (k' == k) = true
    · rw [if_pos hk] at h
      injection h with h
      injection h with h1 h2
      subst h2
      rfl
    · rw [if_neg hk] at h
      cases hpop : odPop k tl with
      | none => rw [hpop] at h; cases h
      | some p =>
        obtain ⟨x', rest'⟩ := p
        rw [hpop] at h
        injection h with h
        injection h with h1 h2
        subst h2
        simp [ih hpop]

theorem odSet_of_hasKey_false {k : Key} {v : α} {l : List (Key × α)}
    (h : hasKey k l = false) : odSet k v l = l ++ [(k, v)] := by
  induction l with
  | nil => simp [odSet]
  | cons hd tl ih =>
    obtain ⟨k', v'⟩ := hd
    rw [hasKey_cons, Bool.or_eq_false_iff] at h
    rw [odSet, if_neg (by simp [h.1]), ih h.2]
    simp

theorem odSet_map_fst_of_mem {m : Key} {w : α} {l : List (Key × α)}
    (h : hasKey m l = true) :
    (odSet m w l).map Prod.fst = l.map Prod.fst := by
  induction l with
  | nil => simp [hasKey] at h
  | cons hd tl ih =>
    obtain ⟨k', v'⟩ := hd
    rw [hasKey_cons] at h
    by_cases hk : (k' == m) = true
    · rw [odSet, if_pos hk]
      simp [beq_iff_eq.mp hk]
    · have hf : (k' == m) = false := by simpa using hk
      rw [hf, Bool.false_or] at h
      rw [odSet, if_neg hk]
      simp [ih h]

theorem odSet_length_of_mem {m : Key} {w : α} {l : List (Key × α)}
    (h : hasKey m l = true) : (odSet m w l).length = l.length := by
  have := congrArg List.length (odSet_map_fst_of_mem (w := w) h)
  simpa using this

theorem odSet_append_not_mem {m : Key} {w : α} {D rest : List (Key × α)}
    (h : hasKey m D = false) :
    odSet m w (D ++ rest) = D ++ odSet m w rest := by
  induction D with
  | nil => simp
  | cons hd tl ih =>
    obtain ⟨k', v'⟩ := hd
    rw [hasKey_cons, Bool.or_eq_false_iff] at h
    rw [List.cons_append, odSet, if_neg (by simp [h.1]), ih h.2]
    rfl

theorem odSet_append_mem {m : Key} {w : α} {D rest : List (Key × α)}
    (h : hasKey m D = true) :
    odSet m w (D ++ rest) = odSet m w D ++ rest := by
  induction D with
  | nil => simp [hasKey] at h
  | cons hd tl ih =>
    obtain ⟨k', v'⟩ := hd
    rw [hasKey_cons] at h
    by_cases hk : (k' == m) = true
    · rw [List.cons_append, odSet, if_pos hk, odSet, if_pos hk]
      rfl
    · have hf : (k' == m) = false := by simpa using hk
      rw [hf, Bool.false_or] at h
      rw [List.cons_append, odSet, if_neg hk, ih h, odSet, if_neg hk]
      rfl

theorem odErase_hasKey_false_of_nodup {k : Key} {l : List (Key × α)}
    (hnd : (l.map Prod.fst).Nodup) : hasKey k (odErase k l) = false := by
  induction l with
  | nil => simp [odErase, hasKey]
  | cons hd tl ih =>
    obtain ⟨k', v'⟩ := hd
    simp only [List.map_cons, List.nodup_cons] at hnd
    rw [odErase]
    by_cases hk : (k' == k) = true
    · have heq : k' = k := beq_iff_eq.mp hk
      subst heq
      rw [if_pos hk]
      -- k' not among the keys of tl
      rw [← Bool.not_eq_true]
      intro hmem
      rcases List.any_eq_true.mp hmem with ⟨⟨a, b⟩, hab, he⟩
      have ha : a = k' := beq_iff_eq.mp he
      subst ha
      exact hnd.1 (List.mem_map_of_mem Prod.fst hab)
    · rw [if_neg hk, hasKey_cons]
      simp [ih hnd.2, by simpa using hk]

theorem odPop_append_last {k : Key} {e : α} {D : List (Key × α)}
    (h : hasKey k D = false) :
    odPop k (D ++ [(k, e)]) = some (e, D) := by
  induction D with
  | nil => simp [odPop]
  | cons hd tl ih =>
    obtain ⟨k', v'⟩ := hd
    rw [hasKey_cons, Bool.or_eq_false_iff] at h
    rw [List.cons_append, odPop, if_neg (by simp [h.1]), ih h.2]

/-! ### Toolbox: eviction-loop and chain-structure lemmas -/

theorem evictLoop_ok_drop (push : Key → Nat → Bool → σ → Except Err Unit × σ × List Key)
    (n : Nat) (cache : List (Key × CVal)) (s : σ)
    (h : (evictLoop push n cache s).1 = .ok ()) :
    (evictLoop push n cache s).2.1 = cache.drop n := by
  induction n generalizing cache s with
  | zero => rfl
  | succ n ih =>
    match cache with
    | [] => simp [evictLoop] at h
    | (k, e) :: tl =>
      simp only [evictLoop] at h ⊢
      rcases hp : (push k e.val e.dirty s).1 with er | u
      · rw [hp] at h
        simp at h
      · rw [hp] at h
        simpa using ih tl _ (by simpa using h)

theorem evictLoop_drop_ex (push : Key → Nat → Bool → σ → Except Err Unit × σ × List Key)
    (n : Nat) (cache : List (Key × CVal)) (s : σ) :
    ∃ j, (evictLoop push n cache s).2.1 = cache.drop j := by
  induction n generalizing cache s with
  | zero => exact ⟨0, rfl⟩
  | succ n ih =>
    match cache with
    | [] => exact ⟨0, by simp [evictLoop]⟩
    | (k, e) :: tl =>
      simp only [evictLoop]
      rcases hp : (push k e.val e.dirty s).1 with er | u
      · exact ⟨1, by simp⟩
      · rcases ih tl ((push k e.val e.dirty s).2.1) with ⟨j, hj⟩
        exact ⟨j + 1, by simpa using hj⟩

theorem layerList_setNondirty (m : List (Key × Nat)) (ch : Chain d) :
    layerList (setNondirty m ch) = layerList ch := by
  induction ch with
  | nilC => rfl
  | bsC bs => rfl
  | consC c low ih => simp [setNondirty, layerList, ih]

theorem storeDb_setNondirty (m : List (Key × Nat)) (ch : Chain d) :
    storeDb (setNondirty m ch) = storeDb ch := by
  induction ch with
  | nilC => rfl
  | bsC bs => rfl
  | consC c low ih => simpa [setNondirty, storeDb, storeOf] using ih

theorem bottomOk_setNondirty (m : List (Key × Nat)) (ch : Chain d) :
    bottomOk (setNondirty m ch) = bottomOk ch := by
  induction ch with
  | nilC => rfl
  | bsC bs => rfl
  | consC c low ih => simpa [setNondirty, bottomOk] using ih

theorem layerList_sendBs (m : List (Key × Nat)) (ch : Chain d) :
    layerList (sendBsNondirties m ch) = layerList ch := by
  rw [sendBsNondirties]
  split
  · exact layerList_setNondirty _ _
  · rfl

theorem storeDb_sendBs (m : List (Key × Nat)) (ch : Chain d) :
    storeDb (sendBsNondirties m ch) = storeDb ch := by
  rw [sendBsNondirties]
  split
  · exact storeDb_setNondirty _ _
  · rfl

theorem bottomOk_sendBs (m : List (Key × Nat)) (ch : Chain d) :
    bottomOk (sendBsNondirties m ch) = bottomOk ch := by
  rw [sendBsNondirties]
  split
  · exact bottomOk_setNondirty _ _
  · rfl

theorem chainInv_consC {c : CacheData} {low : Chain d} :
    chainInv (.consC c low) ↔
      ((c.cache.length : Int) ≤ c.capacity ∧ chainInv low) := by
  simp [chainInv, layerList, storeOf, List.forall_mem_cons, and_assoc]

theorem chainInv_nilC : chainInv .nilC := by
  simp [chainInv, layerList, storeOf]

theorem chainInv_bsC {bs : StoreData} :
    chainInv (.bsC bs) ↔ ∀ l ∈ bs.db.toList, (l.length : Int) ≤ bs.capacity := by
  simp [chainInv, layerList, storeOf]

theorem capsPos_consC {c : CacheData} {low : Chain d} :
    capsPos (.consC c low) ↔ (1 ≤ c.capacity ∧ capsPos low) := by
  simp [capsPos, layerList, storeOf, List.forall_mem_cons, and_assoc]

theorem capsPos_bsC {bs : StoreData} :
    capsPos (.bsC bs) ↔ 1 ≤ bs.capacity := by
  simp [capsPos, layerList, storeOf]

theorem hasSlack_consC {c : CacheData} {low : Chain d} :
    hasSlack (.consC c low) =
      (decide ((c.cache.length : Int) < c.capacity) || hasSlack low) := by
  simp [hasSlack, layerList]

theorem inCaches_consC {k : Key} {c : CacheData} {low : Chain d} :
    inCaches k (.consC c low) = (hasKey k c.cache || inCaches k low) := by
  simp [inCaches, layerList]

theorem storeOf_setNondirty (m : List (Key × Nat)) (ch : Chain d) :
    storeOf (setNondirty m ch) =
      (storeOf ch).map (fun bs => { bs with nondirty_map := m }) := by
  induction ch with
  | nilC => rfl
  | bsC bs => rfl
  | consC c low ih => simpa [setNondirty, storeOf] using ih

theorem chainInv_setNondirty {m : List (Key × Nat)} {ch : Chain d}
    (h : chainInv ch) : chainInv (setNondirty m ch) := by
  refine ⟨by rw [layerList_setNondirty]; exact h.1, ?_⟩
  intro bs hbs l hl'
  rw [storeOf_setNondirty] at hbs
  rcases hso : storeOf ch with _ | bs₀
  · rw [hso] at hbs; cases hbs
  · rw [hso] at hbs
    simp at hbs
    subst hbs
    exact h.2 bs₀ (by rw [hso]; simp) l hl'

theorem capsPos_setNondirty {m : List (Key × Nat)} {ch : Chain d}
    (h : capsPos ch) : capsPos (setNondirty m ch) := by
  refine ⟨by rw [layerList_setNondirty]; exact h.1, ?_⟩
  intro bs hbs
  rw [storeOf_setNondirty] at hbs
  rcases hso : storeOf ch with _ | bs₀
  · rw [hso] at hbs; cases hbs
  · rw [hso] at hbs
    simp at hbs
    subst hbs
    exact h.2 bs₀ (by rw [hso]; simp)

theorem chainInv_sendBs {m : List (Key × Nat)} {ch : Chain d}
    (h : chainInv ch) : chainInv (sendBsNondirties m ch) := by
  rw [sendBsNondirties]
  split
  · exact chainInv_setNondirty h
  · exact h

theorem capsPos_sendBs {m : List (Key × Nat)} {ch : Chain d}
    (h : capsPos ch) : capsPos (sendBsNondirties m ch) := by
  rw [sendBsNondirties]
  split
  · exact capsPos_setNondirty h
  · exact h

/-! ### Toolbox: the recursive probe `_recurs_pop_unless_from_bs` -/

theorem odPop_get_erase {k : Key} {l : List (Key × α)} {x : α}
    {rest : List (Key × α)} (h : odPop k l = some (x, rest)) :
    odGet k l = some x ∧ rest = odErase k l := by
  induction l generalizing x rest with
  | nil => simp [odPop] at h
  | cons hd tl ih =>
    obtain ⟨k', v⟩ := hd
    rw [odPop] at h
    by_cases hk : (k' == k) = true
    · rw [if_pos hk] at h
      injection h with h
      injection h with h1 h2
      subst h1; subst h2
      rw [odGet, if_pos hk, odErase, if_pos hk]
      exact ⟨rfl, rfl⟩
    · rw [if_neg hk] at h
      cases hpop : odPop k tl with
      | none => rw [hpop] at h; cases h
      | some p =>
        obtain ⟨x', rest'⟩ := p
        rw [hpop] at h
        injection h with h
        injection h with h1 h2
        subst h1
        rcases ih hpop with ⟨hg, he⟩
        rw [odGet, if_neg hk, odErase, if_neg hk]
        exact ⟨hg, by rw [← h2, he]⟩

theorem recursPop_err_unchanged :
    ∀ (d : Nat) (k : Key) (ch : Chain d) (e : Err),
    (recursPop d k ch).1 = .error e → (recursPop d k ch).2 = ch := by
  intro d
  induction d with
  | zero =>
    intro k ch e h
    match ch with
    | .nilC => rfl
    | .bsC bs =>
      rw [recursPop]
      rcases hdb : bs.db with _ | l
      · rfl
      · rcases hg : odGet k l with _ | v <;> simp [hdb, hg]
  | succ d ih =>
    intro k ch e h
    match ch with
    | .consC c low =>
      rw [recursPop] at h ⊢
      rcases hpop : odPop k c.cache with _ | p
      · rw [hpop] at h
        simp only at h ⊢
        rw [ih k low e h]
      · obtain ⟨item, rest⟩ := p
        rw [hpop] at h
        simp at h

theorem recursPop_found :
    ∀ (d : Nat) (k : Key) (ch : Chain d), inCaches k ch = true →
    ∃ v, findVal k ch = some v ∧
      recursPop d k ch = (.ok (v, false), eraseFirstInCaches k ch) := by
  intro d
  induction d with
  | zero =>
    intro k ch h
    match ch with
    | .nilC => simp [inCaches, layerList] at h
    | .bsC bs => simp [inCaches, layerList] at h
  | succ d ih =>
    intro k ch h
    match ch with
    | .consC c low =>
      rw [inCaches_consC] at h
      by_cases hk : hasKey k c.cache = true
      · have hsome : (odPop k c.cache).isSome := by rw [odPop_isSome, hk]
        rcases Option.isSome_iff_exists.mp hsome with ⟨⟨item, rest⟩, hpop⟩
        rcases odPop_get_erase hpop with ⟨hg, he⟩
        refine ⟨item.val, ?_, ?_⟩
        · rw [findVal, hg]
        · rw [recursPop, hpop, eraseFirstInCaches, if_pos hk, he]
      · have hf : hasKey k c.cache = false := by simpa using hk
        rw [hf, Bool.false_or] at h
        rcases ih k low h with ⟨v, hv, hrec⟩
        refine ⟨v, ?_, ?_⟩
        · rw [findVal, odGet_eq_none_of_hasKey_false hf]
          exact hv
        · rw [recursPop, odPop_eq_none_of_hasKey_false hf, eraseFirstInCaches,
            if_neg (by simp [hf]), hrec]

theorem recursPop_notin_store {k : Key} :
    ∀ (d : Nat) (ch : Chain d) {l : List (Key × Nat)} {v : Nat},
    inCaches k ch = false → storeDb ch = some l → odGet k l = some v →
    recursPop d k ch = (.ok (v, true), ch) := by
  intro d
  induction d with
  | zero =>
    intro ch l v hin hdb hg
    match ch with
    | .nilC => simp [storeDb, storeOf] at hdb
    | .bsC bs =>
      simp only [storeDb, storeOf] at hdb
      rw [recursPop, hdb]
      simp only []
      rw [hg]
  | succ d ih =>
    intro ch l v hin hdb hg
    match ch with
    | .consC c low =>
      rw [inCaches_consC, Bool.or_eq_false_iff] at hin
      rw [recursPop, odPop_eq_none_of_hasKey_false hin.1,
        ih low hin.2 hdb hg]

theorem recursPop_notin_miss {k : Key} :
    ∀ (d : Nat) (ch : Chain d) {l : List (Key × Nat)},
    inCaches k ch = false → storeDb ch = some l → odGet k l = none →
    recursPop d k ch = (.error .cacheMiss, ch) := by
  intro d
  induction d with
  | zero =>
    intro ch l hin hdb hg
    match ch with
    | .nilC => simp [storeDb, storeOf] at hdb
    | .bsC bs =>
      simp only [storeDb, storeOf] at hdb
      rw [recursPop, hdb]
      simp only []
      rw [hg]
  | succ d ih =>
    intro ch l hin hdb hg
    match ch with
    | .consC c low =>
      rw [inCaches_consC, Bool.or_eq_false_iff] at hin
      rw [recursPop, odPop_eq_none_of_hasKey_false hin.1,
        ih low hin.2 hdb hg]

theorem recursPop_notin_nostore {k : Key} :
    ∀ (d : Nat) (ch : Chain d),
    inCaches k ch = false → storeOf ch = none →
    recursPop d k ch = (.error .cacheMiss, ch) := by
  intro d
  induction d with
  | zero =>
    intro ch hin hso
    match ch with
    | .nilC => rfl
    | .bsC bs => simp [storeOf] at hso
  | succ d ih =>
    intro ch hin hso
    match ch with
    | .consC c low =>
      rw [inCaches_consC, Bool.or_eq_false_iff] at hin
      rw [recursPop, odPop_eq_none_of_hasKey_false hin.1,
        ih low hin.2 hso]

theorem recursPop_notin_closed {k : Key} :
    ∀ (d : Nat) (ch : Chain d) {bs : StoreData},
    inCaches k ch = false → storeOf ch = some bs → bs.db = none →
    recursPop d k ch = (.error .bstoreClosed, ch) := by
  intro d
  induction d with
  | zero =>
    intro ch bs hin hso hdb
    match ch with
    | .nilC => simp [storeOf] at hso
    | .bsC bs' =>
      rw [storeOf] at hso
      injection hso with hso
      subst hso
      rw [recursPop, hdb]
  | succ d ih =>
    intro ch bs hin hso hdb
    match ch with
    | .consC c low =>
      rw [inCaches_consC, Bool.or_eq_false_iff] at hin
      rw [recursPop, odPop_eq_none_of_hasKey_false hin.1,
        ih low hin.2 hso hdb]

theorem recursPop_cacheMiss_bottomOk {k : Key} :
    ∀ (d : Nat) (ch : Chain d),
    (recursPop d k ch).1 = .error .cacheMiss → bottomOk ch = true := by
  intro d
  induction d with
  | zero =>
    intro ch h
    match ch with
    | .nilC => rfl
    | .bsC bs =>
      rw [recursPop] at h
      rcases hdb : bs.db with _ | l
      · rw [hdb] at h; cases h
      · rw [bottomOk, hdb]; rfl
  | succ d ih =>
    intro ch h
    match ch with
    | .consC c low =>
      rw [recursPop] at h
      rcases hpop : odPop k c.cache with _ | p
      · rw [hpop] at h
        simp only at h
        rw [bottomOk]
        exact ih low h
      · obtain ⟨item, rest⟩ := p
        rw [hpop] at h
        cases h

/-! ### Toolbox: `eraseFirstInCaches` preserves the chain data -/

theorem odErase_length_le (k : Key) (l : List (Key × α)) :
    (odErase k l).length ≤ l.length := by
  induction l with
  | nil => simp [odErase]
  | cons hd tl ih =>
    obtain ⟨k', v⟩ := hd
    rw [odErase]
    by_cases h : (k' == k) = true
    · rw [if_pos h]; simp
    · rw [if_neg h]; simpa using ih

theorem odErase_length_of_hasKey {k : Key} {l : List (Key × α)}
    (h : hasKey k l = true) : l.length = (odErase k l).length + 1 := by
  have hsome : (odPop k l).isSome := by rw [odPop_isSome, h]
  rcases Option.isSome_iff_exists.mp hsome with ⟨⟨x, rest⟩, hpop⟩
  rcases odPop_get_erase hpop with ⟨_, he⟩
  rw [← he]
  exact odPop_length hpop

theorem storeOf_eraseFirst (k : Key) (ch : Chain d) :
    storeOf (eraseFirstInCaches k ch) = storeOf ch := by
  induction ch with
  | nilC => rfl
  | bsC bs => rfl
  | consC c low ih =>
    rw [eraseFirstInCaches]
    split <;> simp [storeOf, ih]

theorem bottomOk_eraseFirst (k : Key) (ch : Chain d) :
    bottomOk (eraseFirstInCaches k ch) = bottomOk ch := by
  induction ch with
  | nilC => rfl
  | bsC bs => rfl
  | consC c low ih =>
    rw [eraseFirstInCaches]
    split <;> simp [bottomOk, ih]

theorem chainInv_eraseFirst {k : Key} {ch : Chain d}
    (h : chainInv ch) : chainInv (eraseFirstInCaches k ch) := by
  induction ch with
  | nilC => exact h
  | bsC bs => exact h
  | consC c low ih =>
    rw [chainInv_consC] at h
    rw [eraseFirstInCaches]
    split
    · rw [chainInv_consC]
      refine ⟨?_, h.2⟩
      calc ((odErase k c.cache).length : Int) ≤ (c.cache.length : Int) := by
            exact_mod_cast odErase_length_le k c.cache
        _ ≤ c.capacity := h.1
    · rw [chainInv_consC]
      exact ⟨h.1, ih h.2⟩

theorem capsPos_eraseFirst {k : Key} {ch : Chain d}
    (h : capsPos ch) : capsPos (eraseFirstInCaches k ch) := by
  induction ch with
  | nilC => exact h
  | bsC bs => exact h
  | consC c low ih =>
    rw [capsPos_consC] at h
    rw [eraseFirstInCaches]
    split
    · rw [capsPos_consC]
      exact ⟨h.1, (capsPos_consC.mp (capsPos_consC.mpr h)).2⟩
    · rw [capsPos_consC]
      exact ⟨h.1, ih h.2⟩

theorem hasSlack_eraseFirst {k : Key} {ch : Chain d}
    (hin : inCaches k ch = true) (h : chainInv ch) :
    hasSlack (eraseFirstInCaches k ch) = true := by
  induction ch with
  | nilC => simp [inCaches, layerList] at hin
  | bsC bs => simp [inCaches, layerList] at hin
  | consC c low ih =>
    rw [chainInv_consC] at h
    rw [inCaches_consC] at hin
    rw [eraseFirstInCaches]
    by_cases hk : hasKey k c.cache = true
    · rw [if_pos hk, hasSlack_consC]
      have hlen := odErase_length_of_hasKey (l := c.cache) hk
      have : ((odErase k c.cache).length : Int) < c.capacity := by
        have h1 := h.1
        omega
      simp [this]
    · rw [if_neg hk, hasSlack_consC]
      have hf : hasKey k c.cache = false := by simpa using hk
      rw [hf, Bool.false_or] at hin
      rw [ih hin h.2, Bool.or_true]

/-! ### Toolbox: insertion lemmas -/

theorem odSet_length_le (k : Key) (v : α) (l : List (Key × α)) :
    (odSet k v l).length ≤ l.length + 1 := by
  induction l with
  | nil => simp [odSet]
  | cons hd tl ih =>
    obtain ⟨k', v'⟩ := hd
    rw [odSet]
    by_cases h : (k' == k) = true
    · rw [if_pos h]; simp
    · rw [if_neg h]; simpa using ih

theorem hasKey_eq_keys (k : Key) (l : List (Key × α)) :
    hasKey k l = (l.map Prod.fst).any (fun a => a == k) := by
  induction l with
  | nil => rfl
  | cons hd tl ih =>
    obtain ⟨k', v⟩ := hd
    rw [hasKey_cons]
    simp [ih]

theorem hasKey_odSet_of_mem {m k : Key} {w : α} {l : List (Key × α)}
    (hm : hasKey m l = true) : hasKey k (odSet m w l) = hasKey k l := by
  rw [hasKey_eq_keys, odSet_map_fst_of_mem hm, ← hasKey_eq_keys]

theorem hasKey_append (k : Key) (l₁ l₂ : List (Key × α)) :
    hasKey k (l₁ ++ l₂) = (hasKey k l₁ || hasKey k l₂) := by
  simp [hasKey]

theorem hasKey_drop {k : Key} {l : List (Key × α)} {n : Nat}
    (h : hasKey k l = false) : hasKey k (l.drop n) = false := by
  rw [← Bool.not_eq_true] at h ⊢
  intro hmem
  rcases List.any_eq_true.mp hmem with ⟨p, hp, he⟩
  exact h (List.any_eq_true.mpr ⟨p, List.mem_of_mem_drop hp, he⟩)

theorem odGet_append_last {k : Key} {e : α} {D : List (Key × α)}
    (h : hasKey k D = false) : odGet k (D ++ [(k, e)]) = some e := by
  induction D with
  | nil => simp [odGet]
  | cons hd tl ih =>
    obtain ⟨k', v'⟩ := hd
    rw [hasKey_cons, Bool.or_eq_false_iff] at h
    rw [List.cons_append, odGet, if_neg (by simp [h.1]), ih h.2]

theorem modifyDirty_keys (c : CacheData) :
    (modifyDirtyIfNotified c).cache.map Prod.fst = c.cache.map Prod.fst := by
  rcases hmk : c.modify_key with _ | m
  · simp [modifyDirtyIfNotified, hmk]
  · rcases hg : odGet m c.cache with _ | item
    · simp [modifyDirtyIfNotified, hmk, hg]
    · have hm : hasKey m c.cache = true := by
        rw [← odGet_isSome, hg]; rfl
      simp [modifyDirtyIfNotified, hmk, hg,
        odSet_map_fst_of_mem (w := (⟨true, item.val⟩ : CVal)) hm]

theorem modifyDirty_length (c : CacheData) :
    (modifyDirtyIfNotified c).cache.length = c.cache.length := by
  have := congrArg List.length (modifyDirty_keys c)
  simpa using this

theorem modifyDirty_capacity (c : CacheData) :
    (modifyDirtyIfNotified c).capacity = c.capacity := by
  rcases hmk : c.modify_key with _ | m
  · simp [modifyDirtyIfNotified, hmk]
  · rcases hg : odGet m c.cache with _ | item <;>
      simp [modifyDirtyIfNotified, hmk, hg]

theorem evictLoop_ok_le
    (push : Key → Nat → Bool → σ → Except Err Unit × σ × List Key)
    (n : Nat) (cache : List (Key × CVal)) (s : σ)
    (h : (evictLoop push n cache s).1 = .ok ()) : n ≤ cache.length := by
  induction n generalizing cache s with
  | zero => simp
  | succ n ih =>
    match cache with
    | [] => simp [evictLoop] at h
    | (k, e) :: tl =>
      simp only [evictLoop] at h
      rcases hp : (push k e.val e.dirty s).1 with er | u
      · rw [hp] at h; simp at h
      · rw [hp] at h
        simpa using ih tl _ (by simpa using h)

/-! ### Toolbox: the backing store under the invariant -/

theorem hasKey_of_mem {k : Key} {v : α} {l : List (Key × α)}
    (h : (k, v) ∈ l) : hasKey k l = true := by
  rw [hasKey, List.any_eq_true]
  exact ⟨(k, v), h, by simp⟩

/-- On an open nonempty store, `popitem` succeeds and removes exactly one
entry, leaving capacity and nondirty map untouched. -/
theorem bsPopitem_ok {bs : StoreData} {l : List (Key × Nat)}
    (hdb : bs.db = some l) (hne : l ≠ []) :
    ∃ kv l', (bsPopitem bs).1 = .ok kv ∧
      (bsPopitem bs).2.1 = { bs with db := some l' } ∧
      l.length = l'.length + 1 := by
  rcases hf : l.find? (fun p => !(hasKey p.1 bs.nondirty_map)) with _ | p
  · rcases l with _ | ⟨⟨k, v⟩, tl⟩
    · exact absurd rfl hne
    · refine ⟨(k, v), tl, ?_, ?_, rfl⟩ <;> simp [bsPopitem, hdb, hf]
  · obtain ⟨k, v⟩ := p
    refine ⟨(k, v), odErase k l, ?_, ?_,
      odErase_length_of_hasKey
        (hasKey_of_mem (List.mem_of_find?_eq_some hf))⟩ <;>
      simp [bsPopitem, hdb, hf]

/-- Under the store invariant, `BackingStore.__setitem__` on an open store
with positive capacity succeeds. -/
theorem bsSetitem_ok {k : Key} {v : Nat} {bs : StoreData} {l : List (Key × Nat)}
    (hdb : bs.db = some l) (hcap : 1 ≤ bs.capacity)
    (hinv : (l.length : Int) ≤ bs.capacity) :
    (bsSetitem k v bs).1 = .ok () := by
  simp only [bsSetitem, hdb]
  have hn : ((l.length : Int) + 1 - bs.capacity).toNat ≤ 1 := by omega
  rcases hn0 : ((l.length : Int) + 1 - bs.capacity).toNat with _ | n
  · simp [bsEvict, hdb]
  · have hn1 : n = 0 := by omega
    subst hn1
    have hlen : 1 ≤ l.length := by omega
    have hne : l ≠ [] := by
      intro h; subst h; simp at hlen
    rcases bsPopitem_ok hdb hne with ⟨kv, l', h1, h2, h3⟩
    simp [bsEvict, h1, h2]

/-- `BackingStore.__setitem__` preserves the store invariant (also on
failure), the capacity and the nondirty map. -/
theorem bsSetitem_inv {k : Key} {v : Nat} {bs : StoreData} {l : List (Key × Nat)}
    (hdb : bs.db = some l) (hinv : (l.length : Int) ≤ bs.capacity) :
    (bsSetitem k v bs).2.1.capacity = bs.capacity ∧
    (bsSetitem k v bs).2.1.nondirty_map = bs.nondirty_map ∧
    ∀ l'', (bsSetitem k v bs).2.1.db = some l'' →
      (l''.length : Int) ≤ bs.capacity := by
  simp only [bsSetitem, hdb]
  have hn : ((l.length : Int) + 1 - bs.capacity).toNat ≤ 1 := by omega
  rcases hn0 : ((l.length : Int) + 1 - bs.capacity).toNat with _ | n
  · have h0 : (l.length : Int) + 1 - bs.capacity ≤ 0 := Int.toNat_eq_zero.mp hn0
    simp only [bsEvict, hdb]
    refine ⟨trivial, trivial, ?_⟩
    intro l'' h
    injection h with h
    subst h
    have := odSet_length_le k v l
    omega
  · have hn1 : n = 0 := by omega
    subst hn1
    have h0 : 1 ≤ (l.length : Int) + 1 - bs.capacity := by
      omega
    rcases hl : l with _ | ⟨hd, tl⟩
    · -- popitem on the empty open store fails, leaving it unchanged
      subst hl
      simp only [bsEvict, bsPopitem, hdb, List.find?_nil]
      refine ⟨trivial, trivial, ?_⟩
      intro l'' h
      injection h with h
      subst h
      simpa using hinv
    · subst hl
      rcases bsPopitem_ok hdb (by simp) with ⟨kv, l', h1, h2, h3⟩
      simp only [bsEvict, h1, h2]
      refine ⟨trivial, trivial, ?_⟩
      intro l'' h
      injection h with h
      subst h
      have h4 := odSet_length_le k v l'
      have h6 : (hd :: tl).length = l'.length + 1 := h3
      simp only [List.length_cons] at hinv h0 ⊢
      omega

/-! ### Toolbox: under the chain validity conditions, insertions succeed -/

/-- Under the length invariant and positive capacities, `Cache._setitem`
succeeds whenever the bottom of the chain is not a closed store or some
layer has slack (so the demotion cascade cannot reach a closed store). -/
theorem csetitem_ok : ∀ (d : Nat) (k : Key) (v : Nat) (b : Bool) (ch : Chain d),
    chainInv ch → capsPos ch → (bottomOk ch = true ∨ hasSlack ch = true) →
    (csetitem d k v b ch).1 = .ok () := by
  intro d
  induction d with
  | zero =>
    intro k v b ch hinv hcaps hgo
    match ch with
    | .nilC => rfl
    | .bsC bs =>
      match b with
      | false => rfl
      | true =>
        have hbot : bottomOk (Chain.bsC bs) = true := by
          rcases hgo with h | h
          · exact h
          · simp [hasSlack, layerList] at h
        rw [bottomOk] at hbot
        rcases hdb : bs.db with _ | l
        · rw [hdb] at hbot; simp at hbot
        · have hcap : 1 ≤ bs.capacity := capsPos_bsC.mp hcaps
          have hlen : (l.length : Int) ≤ bs.capacity :=
            (chainInv_bsC.mp hinv) l (by rw [hdb]; simp)
          simp [csetitem, bsSetitem_ok hdb hcap hlen]
  | succ d ih =>
    intro k v b ch hinv hcaps hgo
    match ch with
    | .consC c low =>
      by_cases hk : hasKey k c.cache = true
      · have hsome : (odPop k c.cache).isSome := by rw [odPop_isSome, hk]
        rcases Option.isSome_iff_exists.mp hsome with ⟨⟨item, rest⟩, hpop⟩
        simp [csetitem, hpop]
      · have hf : hasKey k c.cache = false := by simpa using hk
        have hpop := odPop_eq_none_of_hasKey_false (l := c.cache) (k := k) hf
        have hlen : (c.cache.length : Int) ≤ c.capacity :=
          (chainInv_consC.mp hinv).1
        have hcap : 1 ≤ c.capacity := (capsPos_consC.mp hcaps).1
        have hn : ((c.cache.length : Int) + 1 - c.capacity).toNat ≤ 1 := by
          omega
        rcases hn0 : ((c.cache.length : Int) + 1 - c.capacity).toNat with _ | n
        · simp [csetitem, hpop, hn0, evictLoop]
        · have hn1 : n = 0 := by omega
          subst hn1
          have hge : (c.capacity : Int) ≤ (c.cache.length : Int) := by omega
          have hne : c.cache ≠ [] := by
            intro h
            rw [h] at hge
            simp at hge
            omega
          rcases List.exists_cons_of_ne_nil hne with ⟨⟨k₀, e₀⟩, tl, hc⟩
          have hpush : (csetitem d k₀ e₀.val e₀.dirty low).1 = .ok () := by
            apply ih _ _ _ low (chainInv_consC.mp hinv).2 (capsPos_consC.mp hcaps).2
            rcases hgo with h | h
            · exact .inl (by rwa [bottomOk] at h)
            · rw [hasSlack_consC] at h
              rcases Bool.or_eq_true_iff.mp h with h' | h'
              · exfalso
                have := of_decide_eq_true h'
                omega
              · exact .inr h'
          have hloop : (evictLoop (csetitem d) 1 c.cache low).1 = .ok () := by
            rw [hc]
            simp [evictLoop, hpush]
          simp only [csetitem, hpop, hn0]
          simp [hloop]

/-- `Cache._setitem` preserves the length invariant of every layer and of
the store, also when it raises mid-way. -/
theorem csetitem_inv : ∀ (d : Nat) (k : Key) (v : Nat) (b : Bool) (ch : Chain d),
    chainInv ch → chainInv (csetitem d k v b ch).2.1 := by
  intro d
  induction d with
  | zero =>
    intro k v b ch hinv
    match ch with
    | .nilC => exact hinv
    | .bsC bs =>
      match b with
      | false => exact hinv
      | true =>
        rcases hdb : bs.db with _ | l
        · simpa [csetitem, bsSetitem, hdb] using hinv
        · have hlen : (l.length : Int) ≤ bs.capacity :=
            (chainInv_bsC.mp hinv) l (by rw [hdb]; simp)
          rcases bsSetitem_inv (k := k) (v := v) hdb hlen with ⟨hcap', _, hdb'⟩
          simp only [csetitem]
          rw [if_pos trivial, chainInv_bsC]
          intro l'' hmem
          rcases hdb2 : (bsSetitem k v bs).2.1.db with _ | l₂
          · rw [hdb2] at hmem; cases hmem
          · rw [hdb2] at hmem
            simp at hmem
            subst hmem
            rw [hcap']
            exact hdb' l'' hdb2
  | succ d ih =>
    intro k v b ch hinv
    match ch with
    | .consC c low =>
      have hlen : (c.cache.length : Int) ≤ c.capacity :=
        (chainInv_consC.mp hinv).1
      have hlowinv : chainInv low := (chainInv_consC.mp hinv).2
      by_cases hk : hasKey k c.cache = true
      · have hsome : (odPop k c.cache).isSome := by rw [odPop_isSome, hk]
        rcases Option.isSome_iff_exists.mp hsome with ⟨⟨item, rest⟩, hpop⟩
        have hrest : c.cache.length = rest.length + 1 := odPop_length hpop
        simp only [csetitem, hpop]
        rw [chainInv_consC]
        refine ⟨?_, hlowinv⟩
        rw [modifyDirty_length, modifyDirty_capacity]
        have hle := odSet_length_le k (⟨b, v⟩ : CVal) rest
        simp only []
        omega
      · have hf : hasKey k c.cache = false := by simpa using hk
        have hpop := odPop_eq_none_of_hasKey_false (l := c.cache) (k := k) hf
        rcases hn0 : ((c.cache.length : Int) + 1 - c.capacity).toNat with _ | n
        · -- no eviction: the insertion fits
          have hfit : (c.cache.length : Int) + 1 ≤ c.capacity := by omega
          simp only [csetitem, hpop, hn0, evictLoop]
          rw [chainInv_consC]
          refine ⟨?_, hlowinv⟩
          rw [modifyDirty_length, modifyDirty_capacity]
          have hle := odSet_length_le k (⟨b, v⟩ : CVal) c.cache
          simp only []
          omega
        · rcases hc : c.cache with _ | ⟨⟨k₀, e₀⟩, tl⟩
          · -- eviction demanded on an empty layer: `popitem` raises
            simp only [csetitem, hc, odPop]
            rw [hc] at hn0 hlen
            simp only [hn0, evictLoop]
            rw [chainInv_consC]
            exact ⟨by simpa using hlen, hlowinv⟩
          · have htl : (tl.length : Int) + 1 = (c.cache.length : Int) := by
              rw [hc]; simp
            rcases hp : (csetitem d k₀ e₀.val e₀.dirty low).1 with er | u
            · -- the demotion failed: the popped entry is gone
              have hloop : evictLoop (csetitem d) (n + 1) c.cache low =
                  (.error er, tl,
                   (csetitem d k₀ e₀.val e₀.dirty low).2.1,
                   (csetitem d k₀ e₀.val e₀.dirty low).2.2) := by
                rw [hc]
                simp only [evictLoop]
                rw [hp]
              simp only [csetitem, hpop, hn0, hloop]
              rw [chainInv_consC]
              exact ⟨by simp only []; omega, ih _ _ _ low hlowinv⟩
            · have hloop : evictLoop (csetitem d) (n + 1) c.cache low =
                  ((evictLoop (csetitem d) n tl
                      (csetitem d k₀ e₀.val e₀.dirty low).2.1).1,
                   (evictLoop (csetitem d) n tl
                      (csetitem d k₀ e₀.val e₀.dirty low).2.1).2.1,
                   (evictLoop (csetitem d) n tl
                      (csetitem d k₀ e₀.val e₀.dirty low).2.1).2.2.1,
                   (csetitem d k₀ e₀.val e₀.dirty low).2.2 ++
                     (evictLoop (csetitem d) n tl
                        (csetitem d k₀ e₀.val e₀.dirty low).2.1).2.2.2) := by
                rw [hc]
                simp only [evictLoop]
                rw [hp]
              -- under the invariant at most one eviction runs
              have hn1 : n = 0 := by omega
              subst hn1
              simp only [csetitem, hpop, hn0, hloop, evictLoop]
              rw [chainInv_consC]
              constructor
              · rw [modifyDirty_length, modifyDirty_capacity]
                have hle := odSet_length_le k (⟨b, v⟩ : CVal) tl
                simp only []
                omega
              · exact ih _ _ _ low hlowinv

/-- Shape of the top layer after a successful insertion of a key that was
not present: the surviving entries are followed by the fresh entry at the
MRU end, whose dirty flag is the requested one unless the pending
dirty-mark (after folding in the notifications fired by the demotions)
names the inserted key, in which case it is flipped to `true`. -/
theorem csetitem_top_shape {d : Nat} {k : Key} {v : Nat} {b : Bool}
    {c : CacheData} {low : Chain d}
    (hf : hasKey k c.cache = false)
    (hok : (csetitem (d + 1) k v b (.consC c low)).1 = .ok ()) :
    ∃ D b',
      (topCache (csetitem (d + 1) k v b (.consC c low)).2.1).cache =
        D ++ [(k, ⟨b', v⟩)] ∧
      hasKey k D = false ∧
      ((D.length : Int) + 1 ≤ c.capacity) ∧
      (b' = if applyNotifs (csetitem (d + 1) k v b (.consC c low)).2.2
              c.modify_key = some k then true else b) ∧
      (topCache (csetitem (d + 1) k v b (.consC c low)).2.1).capacity =
        c.capacity ∧
      lowerChain (csetitem (d + 1) k v b (.consC c low)).2.1 =
        (evictLoop (csetitem d)
          (((c.cache.length : Int) + 1 - c.capacity).toNat) c.cache low).2.2.1 := by
  have hpop := odPop_eq_none_of_hasKey_false (l := c.cache) (k := k) hf
  have hok' : (evictLoop (csetitem d)
      (((c.cache.length : Int) + 1 - c.capacity).toNat) c.cache low).1 = .ok () := by
    rcases hr : (evictLoop (csetitem d)
        (((c.cache.length : Int) + 1 - c.capacity).toNat) c.cache low).1 with er | u
    · exfalso
      have hcontr : (csetitem (d + 1) k v b (.consC c low)).1 = .error er := by
        simp only [csetitem, hpop, hr]
      rw [hcontr] at hok
      cases hok
    · cases u
      rfl
  have hdrop := evictLoop_ok_drop (csetitem d) _ c.cache low hok'
  have hnle := evictLoop_ok_le (csetitem d) _ c.cache low hok'
  have hkE : hasKey k (c.cache.drop
      (((c.cache.length : Int) + 1 - c.capacity).toNat)) = false :=
    hasKey_drop hf
  have hset := odSet_of_hasKey_false (v := (⟨b, v⟩ : CVal)) hkE
  have hDlen : ((c.cache.drop
      (((c.cache.length : Int) + 1 - c.capacity).toNat)).length : Int) + 1 ≤
      c.capacity := by
    rw [List.length_drop]
    omega
  simp only [csetitem, hpop, hok', hdrop, hset, topCache, lowerChain]
  rcases hmk : applyNotifs (evictLoop (csetitem d)
      (((c.cache.length : Int) + 1 - c.capacity).toNat) c.cache low).2.2.2
      c.modify_key with _ | m
  · -- no pending mark at consumption time
    refine ⟨c.cache.drop (((c.cache.length : Int) + 1 - c.capacity).toNat), b,
      ?_, hkE, hDlen, by simp, ?_, trivial⟩
    · simp [modifyDirtyIfNotified]
    · rw [modifyDirty_capacity]
  · by_cases hm : m = k
    · -- the mark names the inserted key: the fresh entry is flipped dirty
      subst hm
      refine ⟨c.cache.drop (((c.cache.length : Int) + 1 - c.capacity).toNat),
        true, ?_, hkE, hDlen, by simp, ?_, trivial⟩
      · rw [modifyDirtyIfNotified]
        simp only [odGet_append_last hkE]
        rw [odSet_append_not_mem hkE]
        simp [odSet]
      · rw [modifyDirty_capacity]
    · rcases hg : odGet m (c.cache.drop
          (((c.cache.length : Int) + 1 - c.capacity).toNat) ++
          [(k, (⟨b, v⟩ : CVal))]) with _ | item
      · -- mark set but its key is nowhere in the layer: no change
        refine ⟨c.cache.drop (((c.cache.length : Int) + 1 - c.capacity).toNat),
          b, ?_, hkE, hDlen, by simp [hm], ?_, trivial⟩
        · rw [modifyDirtyIfNotified]
          simp only [hg]
        · rw [modifyDirty_capacity]
      · -- mark names another present key: that entry is flipped in place
        have hmmem : hasKey m (c.cache.drop
            (((c.cache.length : Int) + 1 - c.capacity).toNat)) = true := by
          have hsome : (odGet m (c.cache.drop
              (((c.cache.length : Int) + 1 - c.capacity).toNat) ++
              [(k, (⟨b, v⟩ : CVal))])).isSome := by rw [hg]; rfl
          rw [odGet_isSome, hasKey_append, hasKey_cons] at hsome
          have hkm : (k == m) = false := by
            simp only [beq_eq_false_iff_ne, ne_eq]
            exact fun h => hm h.symm
          simpa [hkm, hasKey] using hsome
        refine ⟨odSet m ⟨true, item.val⟩ (c.cache.drop
            (((c.cache.length : Int) + 1 - c.capacity).toNat)), b, ?_, ?_, ?_,
          by simp [hm], ?_, trivial⟩
        · rw [modifyDirtyIfNotified]
          simp only [hg]
          rw [odSet_append_mem hmmem]
        · rw [hasKey_odSet_of_mem hmmem]
          exact hkE
        · rw [odSet_length_of_mem hmmem]
          exact hDlen
        · rw [modifyDirty_capacity]

/-! ### C3: the store's popitem and its upward notification -/

theorem odGet_eq_some_of_mem {l : List (Key × α)} {k : Key} {v : α}
    (hnd : (l.map Prod.fst).Nodup) (hm : (k, v) ∈ l) : odGet k l = some v := by
  induction l with
  | nil => cases hm
  | cons hd tl ih =>
    rcases List.mem_cons.mp hm with h | hm'
    · subst h; simp [odGet]
    · have hne : hd.1 ≠ k := by
        intro h
        exact (List.nodup_cons.mp hnd).1
          (h ▸ List.mem_map_of_mem Prod.fst hm')
      rw [odGet, if_neg (by simpa using hne)]
      exact ih (List.nodup_cons.mp hnd).2 hm'

theorem chainPopitemAux_direct {d : Nat} (ch : Chain d) {bs : StoreData}
    {l : List (Key × Nat)} {k : Key} {v : Nat}
    (hs : storeOf ch = some bs) (hdb : bs.db = some l)
    (hf : l.find? (fun p => !(hasKey p.1 bs.nondirty_map)) = some (k, v)) :
    chainPopitemAux ch = (.ok (k, v), setDb (some (odErase k l)) ch, none) := by
  induction ch with
  | nilC => simp [storeOf] at hs
  | bsC bs' =>
    rw [storeOf] at hs
    injection hs with hs
    subst hs
    simp [chainPopitemAux, bsPopitem, hdb, hf, setDb]
  | consC c low ih =>
    rw [storeOf] at hs
    simp [chainPopitemAux, ih hs, setDb]

theorem chainPopitemAux_notify {d : Nat} (ch : Chain d) {bs : StoreData}
    {l : List (Key × Nat)} {k : Key} {v : Nat} {tl : List (Key × Nat)}
    (hs : storeOf ch = some bs) (hdb : bs.db = some l)
    (hf : l.find? (fun p => !(hasKey p.1 bs.nondirty_map)) = none)
    (hl : l = (k, v) :: tl) :
    chainPopitemAux ch = (.ok (k, v), setAllMk k (setDb (some tl) ch), some k) := by
  induction ch with
  | nilC => simp [storeOf] at hs
  | bsC bs' =>
    rw [storeOf] at hs
    injection hs with hs
    subst hs
    subst hl
    simp [chainPopitemAux, bsPopitem, hdb, hf, setDb, setAllMk]
  | consC c low ih =>
    rw [storeOf] at hs
    simp [chainPopitemAux, ih hs, setDb, setAllMk]

/-- C3.  For every chain ending in an open backing store (without duplicate
keys, as for a real persistent dict): if some stored key is absent from the
nondirty map, `popitem` removes and returns that key with its stored value
and leaves every cache layer (in particular every pending dirty-mark slot)
untouched; otherwise, when every stored key is in the nondirty map and the
store is nonempty, it removes the first entry `(k, v)`, sets the pending
dirty-mark slot of every upper cache layer to `k`, and returns `(k, v)`. -/
theorem c3_popitem {d : Nat} (ch : Chain d) (bs : StoreData)
    (l : List (Key × Nat))
    (hs : storeOf ch = some bs) (hdb : bs.db = some l)
    (hnd : (l.map Prod.fst).Nodup) :
    ((∃ p ∈ l, hasKey p.1 bs.nondirty_map = false) →
      ∃ k v, hasKey k bs.nondirty_map = false ∧ odGet k l = some v ∧
        chainPopitem ch = (.ok (k, v), setDb (some (odErase k l)) ch)) ∧
    ((∀ p ∈ l, hasKey p.1 bs.nondirty_map = true) →
      ∀ k v tl, l = (k, v) :: tl →
        chainPopitem ch = (.ok (k, v), setAllMk k (setDb (some tl) ch))) := by
  constructor
  · rintro ⟨p, hp, hpk⟩
    have hsome : (l.find? (fun p => !(hasKey p.1 bs.nondirty_map))).isSome := by
      rw [List.find?_isSome]
      exact ⟨p, hp, by simp [hpk]⟩
    rcases Option.isSome_iff_exists.mp hsome with ⟨⟨k, v⟩, hf⟩
    have hkey : hasKey k bs.nondirty_map = false := by
      have := List.find?_some hf
      simpa using this
    have hmem : (k, v) ∈ l := List.mem_of_find?_eq_some hf
    refine ⟨k, v, hkey, odGet_eq_some_of_mem hnd hmem, ?_⟩
    rw [chainPopitem, chainPopitemAux_direct ch hs hdb hf]
  · intro hall k v tl hl
    have hf : l.find? (fun p => !(hasKey p.1 bs.nondirty_map)) = none := by
      rw [List.find?_eq_none]
      intro p hp
      simp [hall p hp]
    rw [chainPopitem, chainPopitemAux_notify ch hs hdb hf hl]

/-- C3, witness: both branches at concrete chains with one cache layer over
an open store. -/
theorem c3_popitem_witness :
    chainPopitem (.consC ⟨2, [("p", ⟨true, 9⟩)], none⟩
        (.bsC ⟨3, some [("a", 1), ("b", 2)], [("a", 1)]⟩) : Chain 1) =
      (.ok ("b", 2), .consC ⟨2, [("p", ⟨true, 9⟩)], none⟩
        (.bsC ⟨3, some [("a", 1)], [("a", 1)]⟩)) ∧
    chainPopitem (.consC ⟨2, [("p", ⟨true, 9⟩)], none⟩
        (.bsC ⟨3, some [("a", 1), ("b", 2)], [("a", 1), ("b", 2)]⟩) : Chain 1) =
      (.ok ("a", 1), .consC ⟨2, [("p", ⟨true, 9⟩)], some "a"⟩
        (.bsC ⟨3, some [("b", 2)], [("a", 1), ("b", 2)]⟩)) := by
  constructor
  · rcases (c3_popitem
        (.consC ⟨2, [("p", ⟨true, 9⟩)], none⟩
          (.bsC ⟨3, some [("a", 1), ("b", 2)], [("a", 1)]⟩) : Chain 1)
        ⟨3, some [("a", 1), ("b", 2)], [("a", 1)]⟩
        [("a", 1), ("b", 2)] rfl rfl (by decide)).1
        ⟨("b", 2), by decide, by decide⟩ with ⟨k, v, hk, hget, hres⟩
    have ha : ("a" == k) = false := by
      simpa [hasKey] using hk
    simp only [odGet] at hget
    rw [ha] at hget
    simp only [Bool.false_eq_true, if_false] at hget
    split at hget
    · next hb =>
      have hk2 : k = "b" := (beq_iff_eq.mp hb).symm
      subst hk2
      injection hget with hv
      rw [← hv] at hres
      have hre : setDb (some (odErase "b" [("a", 1), ("b", 2)]))
          (.consC ⟨2, [("p", ⟨true, 9⟩)], none⟩
            (.bsC ⟨3, some [("a", 1), ("b", 2)], [("a", 1)]⟩) : Chain 1) =
          (.consC ⟨2, [("p", ⟨true, 9⟩)], none⟩
            (.bsC ⟨3, some [("a", 1)], [("a", 1)]⟩) : Chain 1) := by decide
      rw [hre] at hres
      exact hres
    · next hb => cases hget
  · exact (c3_popitem
        (.consC ⟨2, [("p", ⟨true, 9⟩)], none⟩
          (.bsC ⟨3, some [("a", 1), ("b", 2)], [("a", 1), ("b", 2)]⟩) : Chain 1)
        ⟨3, some [("a", 1), ("b", 2)], [("a", 1), ("b", 2)]⟩
        [("a", 1), ("b", 2)] rfl rfl (by decide)).2
        (by decide) "a" 1 [("b", 2)] rfl

/-! ### C2: the insertion algorithm refines the spec's steps 1-3 -/

theorem allMkNone_consC {c : CacheData} {low : Chain d} :
    allMkNone (.consC c low) ↔ c.modify_key = none ∧ allMkNone low := by
  simp [allMkNone, layerList]

theorem allMkNone_base (ch : Chain 0) : allMkNone ch := by
  match ch with
  | .nilC => simp [allMkNone, layerList]
  | .bsC _ => simp [allMkNone, layerList]

theorem modifyDirty_of_mk_none {c : CacheData} (h : c.modify_key = none) :
    modifyDirtyIfNotified c = c := by
  simp [modifyDirtyIfNotified, h]

/-- Core of C2: under no pending dirty-marks and no fired notifications,
`Cache._setitem` computes exactly the spec-side algorithm and creates no
pending dirty-marks. -/
theorem c2core : ∀ (d : Nat) (k : Key) (v : Nat) (b : Bool) (ch : Chain d),
    allMkNone ch → (csetitem d k v b ch).2.2 = [] →
    csetitemS d k v b ch = ((csetitem d k v b ch).1, (csetitem d k v b ch).2.1) ∧
    allMkNone (csetitem d k v b ch).2.1 := by
  intro d
  induction d with
  | zero =>
    intro k v b ch _ _
    match ch with
    | .nilC => exact ⟨rfl, allMkNone_base _⟩
    | .bsC bs =>
      match b with
      | false => exact ⟨rfl, allMkNone_base _⟩
      | true =>
        rcases h : bsSetitem k v bs with ⟨r, bs', ns⟩
        refine ⟨?_, allMkNone_base _⟩
        simp [csetitem, csetitemS, h]
  | succ d ih =>
    intro k v b ch hmk hns
    match ch with
    | .consC c low =>
      have hc : c.modify_key = none := (allMkNone_consC.mp hmk).1
      have hlow : allMkNone low := (allMkNone_consC.mp hmk).2
      match hpop : odPop k c.cache with
      | some (x, rest) =>
        simp only [csetitem, csetitemS, hpop]
        rw [modifyDirty_of_mk_none (by simpa using hc)]
        exact ⟨rfl, allMkNone_consC.mpr ⟨by simpa using hc, hlow⟩⟩
      | none =>
        -- the eviction loop: prove the loop-level refinement by an inner
        -- induction on the iteration count
        have loop : ∀ (n : Nat) (cache : List (Key × CVal)) (lw : Chain d),
            allMkNone lw →
            (evictLoop (csetitem d) n cache lw).2.2.2 = [] →
            evictLoopS (csetitemS d) n cache lw =
              ((evictLoop (csetitem d) n cache lw).1,
               (evictLoop (csetitem d) n cache lw).2.1,
               (evictLoop (csetitem d) n cache lw).2.2.1) ∧
            allMkNone (evictLoop (csetitem d) n cache lw).2.2.1 := by
          intro n
          induction n with
          | zero => intro cache lw hlw _; exact ⟨rfl, hlw⟩
          | succ n ihn =>
            intro cache lw hlw hns'
            match cache with
            | [] => exact ⟨rfl, hlw⟩
            | (k', e) :: tl =>
              rcases hp : csetitem d k' e.val e.dirty lw with ⟨r₁, lw₁, ns₁⟩
              match r₁, hp with
              | .error er, hp =>
                simp only [evictLoop, hp] at hns' ⊢
                have hpush := ih k' e.val e.dirty lw hlw (by rw [hp, hns'])
                rw [hp] at hpush
                rcases hpush with ⟨h1, h3⟩
                simp only [evictLoopS, h1]
                exact ⟨trivial, h3⟩
              | .ok u, hp =>
                rcases hq : evictLoop (csetitem d) n tl lw₁ with
                  ⟨r₂, cache₂, lw₂, ns₂⟩
                simp only [evictLoop, hp, hq] at hns' ⊢
                rcases List.append_eq_nil.mp hns' with ⟨hns₁, hns₂⟩
                have hpush := ih k' e.val e.dirty lw hlw (by rw [hp, hns₁])
                rw [hp] at hpush
                rcases hpush with ⟨h1, h3⟩
                have hrest := ihn tl lw₁ h3 (by rw [hq]; exact hns₂)
                rw [hq] at hrest
                rcases hrest with ⟨g1, g4⟩
                simp only [evictLoopS, h1, g1]
                exact ⟨trivial, g4⟩
        rcases hq : evictLoop (csetitem d)
            (((c.cache.length : Int) + 1 - c.capacity).toNat) c.cache low
          with ⟨r₂, cache₂, low₂, ns₂⟩
        have hnil : ns₂ = [] := by
          simp only [csetitem, hpop, hq] at hns
          match r₂, hns with
          | .error e, hns => exact hns
          | .ok u, hns => exact hns
        subst hnil
        have hlp := loop (((c.cache.length : Int) + 1 - c.capacity).toNat)
          c.cache low hlow (by rw [hq])
        rw [hq] at hlp
        rcases hlp with ⟨h1, h4⟩
        simp only [csetitem, csetitemS, hpop, hq, h1]
        match r₂ with
        | .error e =>
          refine ⟨rfl, ?_⟩
          exact allMkNone_consC.mpr ⟨by simpa [applyNotifs] using hc, h4⟩
        | .ok u =>
          rw [modifyDirty_of_mk_none (by simpa [applyNotifs] using hc)]
          refine ⟨?_, ?_⟩
          · simp [applyNotifs, hc]
          · exact allMkNone_consC.mpr ⟨by simpa [applyNotifs] using hc, h4⟩

/-- C2.  The insertion of `(k, v, dirty)` into a cache layer behaves exactly
as the claim's algorithm: an existing key is removed (regardless of flags)
with no eviction loop; otherwise, while `len ≥ capacity`, the LRU entry is
popped and recursively inserted into a lower cache with its dirty flag
propagated, written to a lower backing store iff dirty (a clean evictee is
dropped), or discarded when there is no lower layer; finally `(k, v, dirty)`
is inserted at the MRU end.  Formally: on any chain with no pending
dirty-marks and on which the call fires no upward notifications (the
separately claimed C7 machinery), `Cache._setitem` coincides with the
spec-worded reference implementation `csetitemS` of precisely those steps. -/
theorem c2_refinement {d : Nat} (k : Key) (v : Nat) (b : Bool) (ch : Chain d)
    (hmk : allMkNone ch) (hns : (csetitem d k v b ch).2.2 = []) :
    csetitemS d k v b ch =
      ((csetitem d k v b ch).1, (csetitem d k v b ch).2.1) :=
  (c2core d k v b ch hmk hns).1

/-- C2, witness: a full capacity-1 layer over a full capacity-1 layer over
an open store; inserting a fresh key cascades a demotion into each and a
dirty write-back into the store. -/
theorem c2_refinement_witness :
    allMkNone (.consC ⟨1, [("a", ⟨true, 1⟩)], none⟩
      (.consC ⟨1, [("c", ⟨true, 3⟩)], none⟩
        (.bsC ⟨3, some [("x", 9)], [("q", 4)]⟩)) : Chain 2) ∧
    (csetitem 2 "b" 2 true (.consC ⟨1, [("a", ⟨true, 1⟩)], none⟩
      (.consC ⟨1, [("c", ⟨true, 3⟩)], none⟩
        (.bsC ⟨3, some [("x", 9)], [("q", 4)]⟩)))).2.2 = [] ∧
    csetitemS 2 "b" 2 true (.consC ⟨1, [("a", ⟨true, 1⟩)], none⟩
      (.consC ⟨1, [("c", ⟨true, 3⟩)], none⟩
        (.bsC ⟨3, some [("x", 9)], [("q", 4)]⟩))) =
      ((csetitem 2 "b" 2 true (.consC ⟨1, [("a", ⟨true, 1⟩)], none⟩
        (.consC ⟨1, [("c", ⟨true, 3⟩)], none⟩
          (.bsC ⟨3, some [("x", 9)], [("q", 4)]⟩)))).1,
       (csetitem 2 "b" 2 true (.consC ⟨1, [("a", ⟨true, 1⟩)], none⟩
        (.consC ⟨1, [("c", ⟨true, 3⟩)], none⟩
          (.bsC ⟨3, some [("x", 9)], [("q", 4)]⟩)))).2.1) :=
  ⟨by decide, by decide,
   c2_refinement "b" 2 true _ (by decide) (by decide)⟩

/-! ### Toolbox: the public entry points seen layer by layer -/

theorem chain_succ (ch : Chain (d + 1)) :
    ch = .consC (topCache ch) (lowerChain ch) := by
  match ch with
  | .consC _ _ => rfl

theorem layerList_succ (ch : Chain (d + 1)) :
    layerList ch = topCache ch :: layerList (lowerChain ch) := by
  match ch with
  | .consC _ _ => rfl

theorem storeDb_succ (ch : Chain (d + 1)) :
    storeDb ch = storeDb (lowerChain ch) := by
  match ch with
  | .consC _ _ => rfl

theorem topCache_sendBs (m : List (Key × Nat)) (ch : Chain (d + 1)) :
    topCache (sendBsNondirties m ch) = topCache ch := by
  have h := layerList_sendBs m ch
  rw [layerList_succ, layerList_succ] at h
  exact (List.cons.injEq _ _ _ _).mp h |>.1

theorem layerList_lowerChain_sendBs (m : List (Key × Nat)) (ch : Chain (d + 1)) :
    layerList (lowerChain (sendBsNondirties m ch)) = layerList (lowerChain ch) := by
  have h := layerList_sendBs m ch
  rw [layerList_succ, layerList_succ] at h
  exact (List.cons.injEq _ _ _ _).mp h |>.2

theorem hasSlack_sendBs (m : List (Key × Nat)) (ch : Chain d) :
    hasSlack (sendBsNondirties m ch) = hasSlack ch := by
  rw [hasSlack, hasSlack, layerList_sendBs]

theorem hasKey_top_of_inCaches_false {k : Key} {ch : Chain (d + 1)}
    (h : inCaches k ch = false) : hasKey k (topCache ch).cache = false := by
  match ch with
  | .consC c low =>
    rw [inCaches_consC, Bool.or_eq_false_iff] at h
    exact h.1

theorem bottomOk_of_storeDb {ch : Chain d} {l : List (Key × Nat)}
    (h : storeDb ch = some l) : bottomOk ch = true := by
  induction ch with
  | nilC => simp [storeDb, storeOf] at h
  | bsC bs =>
    simp only [storeDb, storeOf] at h
    rw [bottomOk, h]
    rfl
  | consC c low ih =>
    rw [bottomOk]
    exact ih h

/-- The probe preserves the length invariant, also on failure. -/
theorem recursPop_chainInv :
    ∀ (d : Nat) (k : Key) (ch : Chain d),
    chainInv ch → chainInv (recursPop d k ch).2 := by
  intro d
  induction d with
  | zero =>
    intro k ch hinv
    match ch with
    | .nilC => exact hinv
    | .bsC bs =>
      rw [recursPop]
      rcases hdb : bs.db with _ | l
      · exact hinv
      · rcases hg : odGet k l with _ | v <;> simpa [hdb, hg] using hinv
  | succ d ih =>
    intro k ch hinv
    match ch with
    | .consC c low =>
      rw [chainInv_consC] at hinv
      rw [recursPop]
      rcases hpop : odPop k c.cache with _ | ⟨item, rest⟩
      · simp only []
        rw [chainInv_consC]
        exact ⟨hinv.1, ih k low hinv.2⟩
      · simp only []
        rw [chainInv_consC]
        refine ⟨?_, hinv.2⟩
        have := odPop_length hpop
        have h1 := hinv.1
        simp only at h1 ⊢
        omega

/-- The probe preserves the positivity of all capacities. -/
theorem recursPop_capsPos :
    ∀ (d : Nat) (k : Key) (ch : Chain d),
    capsPos ch → capsPos (recursPop d k ch).2 := by
  intro d
  induction d with
  | zero =>
    intro k ch hcaps
    match ch with
    | .nilC => exact hcaps
    | .bsC bs =>
      rw [recursPop]
      rcases hdb : bs.db with _ | l
      · exact hcaps
      · rcases hg : odGet k l with _ | v <;> simpa [hdb, hg] using hcaps
  | succ d ih =>
    intro k ch hcaps
    match ch with
    | .consC c low =>
      rw [capsPos_consC] at hcaps
      rw [recursPop]
      rcases hpop : odPop k c.cache with _ | ⟨item, rest⟩
      · simp only []
        rw [capsPos_consC]
        exact ⟨hcaps.1, ih k low hcaps.2⟩
      · simp only []
        rw [capsPos_consC]
        exact ⟨hcaps.1, hcaps.2⟩

/-- A successful probe either found the key in a cache layer (the
`from_bstore` flag is false), or read it from the open store leaving the
whole chain untouched. -/
theorem recursPop_ok_cases :
    ∀ (d : Nat) (k : Key) (ch : Chain d) {v : Nat} {fb : Bool},
    (recursPop d k ch).1 = .ok (v, fb) →
    (fb = false ∧ inCaches k ch = true) ∨
    (fb = true ∧ (recursPop d k ch).2 = ch ∧ bottomOk ch = true) := by
  intro d
  induction d with
  | zero =>
    intro k ch v fb h
    match ch with
    | .nilC => cases h
    | .bsC bs =>
      rw [recursPop] at h ⊢
      rcases hdb : bs.db with _ | l
      · rw [hdb] at h; cases h
      · simp only [hdb] at h ⊢
        rcases hg : odGet k l with _ | w
        · simp only [hg] at h; cases h
        · simp only [hg] at h ⊢
          injection h with h
          injection h with h1 h2
          refine .inr ⟨h2.symm, trivial, ?_⟩
          rw [bottomOk, hdb]
          rfl
  | succ d ih =>
    intro k ch v fb h
    match ch with
    | .consC c low =>
      rw [recursPop] at h ⊢
      rcases hpop : odPop k c.cache with _ | ⟨item, rest⟩
      · simp only [hpop] at h ⊢
        rcases ih k low h with ⟨h1, h2⟩ | ⟨h1, h2, h3⟩
        · refine .inl ⟨h1, ?_⟩
          rw [inCaches_consC, h2, Bool.or_true]
        · refine .inr ⟨h1, ?_, ?_⟩
          · rw [h2]
          · rw [bottomOk]
            exact h3
      · simp only [hpop] at h ⊢
        injection h with h
        injection h with h1 h2
        refine .inl ⟨h2.symm, ?_⟩
        have : hasKey k c.cache = true := by
          rw [← odPop_isSome, hpop]
          rfl
        rw [inCaches_consC, this, Bool.true_or]

/-- After a successful (or failing) probe the key is absent from the top
layer, whose capacity and pending mark are untouched (duplicate-free keys,
as in a real `OrderedDict`). -/
theorem recursPop_top_nokey {d : Nat} (k : Key) (ch : Chain (d + 1))
    (hnd : ((topCache ch).cache.map Prod.fst).Nodup) :
    hasKey k (topCache (recursPop (d + 1) k ch).2).cache = false ∧
    (topCache (recursPop (d + 1) k ch).2).capacity = (topCache ch).capacity ∧
    (topCache (recursPop (d + 1) k ch).2).modify_key =
      (topCache ch).modify_key := by
  match ch with
  | .consC c low =>
    rw [recursPop]
    rcases hpop : odPop k c.cache with _ | ⟨item, rest⟩
    · simp only [topCache]
      refine ⟨?_, trivial, trivial⟩
      rw [← odPop_isSome, hpop]
      rfl
    · simp only [topCache]
      refine ⟨?_, trivial, trivial⟩
      rcases odPop_get_erase hpop with ⟨_, he⟩
      rw [he]
      exact odErase_hasKey_false_of_nodup hnd

/-- `Cache.popitem(last=False)` iterated `n` times: the length drops by
exactly `n` (saturating at the empty mapping), capacity and mark untouched. -/
theorem cachePopFirstN_len (n : Nat) (c : CacheData) :
    (cachePopFirstN n c).2.cache.length = c.cache.length - n ∧
    (cachePopFirstN n c).2.capacity = c.capacity ∧
    (cachePopFirstN n c).2.modify_key = c.modify_key := by
  induction n generalizing c with
  | zero => exact ⟨rfl, rfl, rfl⟩
  | succ n ih =>
    rw [cachePopFirstN]
    rcases hc : c.cache with _ | ⟨hd, tl⟩
    · simp [hc]
    · rcases ih { c with cache := tl } with ⟨h1, h2, h3⟩
      refine ⟨?_, h2, h3⟩
      rw [h1]
      show tl.length - n = (hd :: tl).length - (n + 1)
      simp only [List.length_cons]
      omega

/-- `Cache.__getitem__` preserves the length invariant of every layer and
of the store. -/
theorem getitem_chainInv {d : Nat} (k : Key) (ch : Chain (d + 1))
    (hinv : chainInv ch) : chainInv (getitemN k ch).2.1 := by
  simp only [getitemN]
  rcases hp : (recursPop (d + 1) k ch).1 with e | ⟨item, fb⟩
  · simp only [hp]
    exact recursPop_chainInv _ _ _ hinv
  · simp only [hp]
    have hmid : chainInv
        (sendBsNondirties [(k, item)] (recursPop (d + 1) k ch).2) :=
      chainInv_sendBs (recursPop_chainInv _ _ _ hinv)
    rcases hq : (csetitem (d + 1) k item (!fb)
        (sendBsNondirties [(k, item)] (recursPop (d + 1) k ch).2)).1 with e | u
    · simp only [hq]
      exact csetitem_inv _ _ _ _ _ hmid
    · simp only [hq]
      exact csetitem_inv _ _ _ _ _ hmid

/-- `Cache.__setitem__` preserves the length invariant of every layer and
of the store. -/
theorem setitemTop_chainInv {d : Nat} (k : Key) (v : Nat) (ch : Chain (d + 1))
    (hinv : chainInv ch) : chainInv (setitemTopN k v ch).2.1 := by
  simp only [setitemTopN]
  rcases hp : (recursPop (d + 1) k ch).1 with e | ⟨item, fb⟩
  · cases e
    · simp only [hp]
      exact csetitem_inv _ _ _ _ _
        (chainInv_sendBs (recursPop_chainInv _ _ _ hinv))
    all_goals
      simp only [hp]
      exact recursPop_chainInv _ _ _ hinv
  · simp only [hp]
    exact csetitem_inv _ _ _ _ _
      (chainInv_sendBs (recursPop_chainInv _ _ _ hinv))

/-! ### C4 (amended): where the length invariant does and does not hold -/

/-- C4, amended.  `0 ≤ len(L) ≤ capacity(L)` is preserved by `Lookup` and
`Store` on every layer (and by the store), and the capacity setter
re-establishes `len ≤ capacity` for any nonnegative new capacity — but (per
the counterexample) construction with oversized `init_values` and bulk
`update` do not trim, so the claim's "after every public operation" fails. -/
theorem c4_amended {d : Nat} (k : Key) (v : Nat) (ch : Chain (d + 1))
    (newCap : Int) (c : CacheData) (hinv : chainInv ch) (hcap : 0 ≤ newCap) :
    chainInv (setitemTop k v ch).2 ∧
    chainInv (getitem k ch).2 ∧
    (capSet newCap c).2.capacity = newCap ∧
    ((capSet newCap c).2.cache.length : Int) ≤ newCap := by
  refine ⟨setitemTop_chainInv k v ch hinv, getitem_chainInv k ch hinv, ?_, ?_⟩
  · show (cachePopFirstN (((c.cache.length : Int) - newCap).toNat)
      { c with capacity := newCap }).2.capacity = newCap
    rw [(cachePopFirstN_len _ _).2.1]
  · show ((cachePopFirstN (((c.cache.length : Int) - newCap).toNat)
      { c with capacity := newCap }).2.cache.length : Int) ≤ newCap
    rw [(cachePopFirstN_len _ _).1]
    show ((c.cache.length - ((c.cache.length : Int) - newCap).toNat : Nat) :
      Int) ≤ newCap
    omega

/-- C4, amended: witness. -/
theorem c4_amended_witness :
    chainInv (Chain.consC ⟨1, [("x", ⟨true, 7⟩)], none⟩
      (.bsC ⟨1, some [("b", 2)], []⟩) : Chain 1) ∧
    (0 : Int) ≤ 2 ∧
    (chainInv (setitemTop "a" 1 (Chain.consC ⟨1, [("x", ⟨true, 7⟩)], none⟩
        (.bsC ⟨1, some [("b", 2)], []⟩) : Chain 1)).2 ∧
      chainInv (getitem "a" (Chain.consC ⟨1, [("x", ⟨true, 7⟩)], none⟩
        (.bsC ⟨1, some [("b", 2)], []⟩) : Chain 1)).2 ∧
      (capSet 2 ⟨1, [("q", ⟨true, 1⟩)], none⟩).2.capacity = 2 ∧
      (((capSet 2 ⟨1, [("q", ⟨true, 1⟩)], none⟩).2.cache.length : Int) ≤ 2)) :=
  ⟨by decide, by decide,
   c4_amended "a" 1 _ 2 ⟨1, [("q", ⟨true, 1⟩)], none⟩ (by decide) (by decide)⟩

/-- Under the validity conditions, the insertion performed after a
successful probe cannot fail: either the probe removed the key from a cache
layer (creating slack for the cascade) or it read the open store (so the
cascade's final write cannot hit a closed store). -/
theorem csetitem_after_probe_ok {d : Nat} (key k' : Key) (v' : Nat)
    {item : Nat} {fb : Bool} (b : Bool) (m : List (Key × Nat))
    (ch : Chain (d + 1)) (hinv : chainInv ch) (hcaps : capsPos ch)
    (hp : (recursPop (d + 1) key ch).1 = .ok (item, fb)) :
    (csetitem (d + 1) k' v' b
      (sendBsNondirties m (recursPop (d + 1) key ch).2)).1 = .ok () := by
  apply csetitem_ok
  · exact chainInv_sendBs (recursPop_chainInv _ _ _ hinv)
  · exact capsPos_sendBs (recursPop_capsPos _ _ _ hcaps)
  · rcases recursPop_ok_cases _ _ _ hp with ⟨hfb, hin⟩ | ⟨hfb, heq, hbot⟩
    · right
      rcases recursPop_found _ _ _ hin with ⟨w, hw, hrec⟩
      have h2 : (recursPop (d + 1) key ch).2 = eraseFirstInCaches key ch := by
        rw [hrec]
      rw [hasSlack_sendBs, h2]
      exact hasSlack_eraseFirst hin hinv
    · left
      rw [bottomOk_sendBs, heq]
      exact hbot

/-- Under the validity conditions, the insertion performed after a
`CacheMiss` probe (the swallowed-miss path of `__setitem__`) cannot fail:
a `CacheMiss` can only be raised once the probe has reached an open store
or the bottom of the chain. -/
theorem csetitem_after_miss_ok {d : Nat} (key k' : Key) (v' : Nat) (b : Bool)
    (m : List (Key × Nat)) (ch : Chain (d + 1))
    (hinv : chainInv ch) (hcaps : capsPos ch)
    (hp : (recursPop (d + 1) key ch).1 = .error .cacheMiss) :
    (csetitem (d + 1) k' v' b
      (sendBsNondirties m (recursPop (d + 1) key ch).2)).1 = .ok () := by
  have heq := recursPop_err_unchanged _ _ _ _ hp
  apply csetitem_ok
  · exact chainInv_sendBs (recursPop_chainInv _ _ _ hinv)
  · exact capsPos_sendBs (recursPop_capsPos _ _ _ hcaps)
  · left
    rw [bottomOk_sendBs, heq]
    exact recursPop_cacheMiss_bottomOk _ _ hp

/-! ### C5 (amended): failures mutate nothing on valid chains -/

/-- C5, amended.  On chains with strictly positive capacities satisfying
the length invariant (the spec's own validity conditions, violated only by
the untrimmed constructions of C4): a failing `Store` leaves the entire
chain — every layer's entries, order and dirty flags, the store's contents
and its nondirty map — unchanged, and a failing `Lookup` likewise leaves
the chain (hence all ordering) unchanged.  Both can fail only in the probe,
before any mutation. -/
theorem c5_amended {d : Nat} (key : Key) (v : Nat) (ch : Chain (d + 1))
    (hinv : chainInv ch) (hcaps : capsPos ch) :
    (∀ e, (setitemTop key v ch).1 = .error e → (setitemTop key v ch).2 = ch) ∧
    (∀ e, (getitem key ch).1 = .error e → (getitem key ch).2 = ch) := by
  constructor
  · intro e he
    replace he : (setitemTopN key v ch).1 = .error e := he
    show (setitemTopN key v ch).2.1 = ch
    simp only [setitemTopN] at he ⊢
    rcases hp : (recursPop (d + 1) key ch).1 with e' | ⟨item, fb⟩
    · cases e'
      · -- the swallowed CacheMiss: the subsequent insertion cannot fail
        simp only [hp] at he
        rw [csetitem_after_miss_ok key key v true [] ch hinv hcaps hp] at he
        simp at he
      all_goals
        simp only [hp] at he ⊢
        exact recursPop_err_unchanged _ _ _ _ hp
    · simp only [hp] at he
      rw [csetitem_after_probe_ok key key v true [(key, item)] ch
        hinv hcaps hp] at he
      simp at he
  · intro e he
    replace he : (getitemN key ch).1 = .error e := he
    show (getitemN key ch).2.1 = ch
    simp only [getitemN] at he ⊢
    rcases hp : (recursPop (d + 1) key ch).1 with e' | ⟨item, fb⟩
    · simp only [hp] at he ⊢
      exact recursPop_err_unchanged _ _ _ _ hp
    · simp only [hp] at he
      rw [csetitem_after_probe_ok key key item (!fb) [(key, item)] ch
        hinv hcaps hp] at he
      simp at he

/-- C5, amended: witness (a failing Lookup on a valid chain leaves it
unchanged). -/
theorem c5_amended_witness :
    chainInv (Chain.consC ⟨1, [("x", ⟨true, 7⟩)], none⟩
      (.bsC ⟨1, some [], []⟩) : Chain 1) ∧
    capsPos (Chain.consC ⟨1, [("x", ⟨true, 7⟩)], none⟩
      (.bsC ⟨1, some [], []⟩) : Chain 1) ∧
    (getitem "a" (Chain.consC ⟨1, [("x", ⟨true, 7⟩)], none⟩
      (.bsC ⟨1, some [], []⟩) : Chain 1)).1 = .error .cacheMiss ∧
    (getitem "a" (Chain.consC ⟨1, [("x", ⟨true, 7⟩)], none⟩
      (.bsC ⟨1, some [], []⟩) : Chain 1)).2 =
      (Chain.consC ⟨1, [("x", ⟨true, 7⟩)], none⟩
        (.bsC ⟨1, some [], []⟩) : Chain 1) :=
  ⟨by decide, by decide, by decide,
   (c5_amended "a" 0 (Chain.consC ⟨1, [("x", ⟨true, 7⟩)], none⟩
       (.bsC ⟨1, some [], []⟩) : Chain 1) (by decide) (by decide)).2
     .cacheMiss (by decide)⟩

/-! ### C1 (amended): the three-case behaviour of Lookup -/

/-- C1, amended.  On valid chains (positive capacities, length invariant,
duplicate-free top layer): if the key is in some cache layer, Lookup
removes it there, returns its value and reinserts it at the MRU end of the
top layer dirty; if it is absent from all cache layers but in the open
store, Lookup returns the store's value and inserts it at the MRU end of
the top layer with `dirty = false` UNLESS the pending dirty-mark applicable
at insertion time (pre-existing, or fired by the insertion's own eviction
cascade) names that key, in which case the fresh entry ends dirty; if the
key is absent from every cache layer and from the open store, or there is
no store at all, Lookup raises `CacheMiss` and leaves the chain unchanged. -/
theorem c1_amended {d : Nat} (k : Key) (ch : Chain (d + 1))
    (hinv : chainInv ch) (hcaps : capsPos ch)
    (hnd : ((topCache ch).cache.map Prod.fst).Nodup) :
    (inCaches k ch = true →
      ∃ v, findVal k ch = some v ∧ (getitem k ch).1 = .ok v ∧
        ∃ D, (topCache (getitem k ch).2).cache = D ++ [(k, ⟨true, v⟩)] ∧
          hasKey k D = false) ∧
    (∀ l v, inCaches k ch = false → storeDb ch = some l → odGet k l = some v →
      (getitem k ch).1 = .ok v ∧
      ∃ D b', (topCache (getitem k ch).2).cache = D ++ [(k, ⟨b', v⟩)] ∧
        hasKey k D = false ∧
        b' = (if applyNotifs (getitemN k ch).2.2 (topCache ch).modify_key
                = some k then true else false)) ∧
    (∀ l, inCaches k ch = false → storeDb ch = some l → odGet k l = none →
      getitem k ch = (.error .cacheMiss, ch)) ∧
    (inCaches k ch = false → storeOf ch = none →
      getitem k ch = (.error .cacheMiss, ch)) := by
  refine ⟨?_, ?_, ?_, ?_⟩
  · -- case A: found in a cache layer
    intro hin
    rcases recursPop_found _ k ch hin with ⟨v, hfind, hrec⟩
    have hp1 : (recursPop (d + 1) k ch).1 = .ok (v, false) := by rw [hrec]
    have hok := csetitem_after_probe_ok k k v (!false) [(k, v)] ch
      hinv hcaps hp1
    have hgn : getitemN k ch =
        (.ok v,
         (csetitem (d + 1) k v (!false)
           (sendBsNondirties [(k, v)] (recursPop (d + 1) k ch).2)).2.1,
         (csetitem (d + 1) k v (!false)
           (sendBsNondirties [(k, v)] (recursPop (d + 1) k ch).2)).2.2) := by
      simp only [getitemN, hp1, hok]
    have htopf : hasKey k (topCache (sendBsNondirties [(k, v)]
        (recursPop (d + 1) k ch).2)).cache = false := by
      rw [topCache_sendBs]
      exact (recursPop_top_nokey k ch hnd).1
    have hmid := chain_succ (sendBsNondirties [(k, v)]
      (recursPop (d + 1) k ch).2)
    rw [hmid] at hok
    obtain ⟨D, b', hD, hkD, hlen, hb', hcap', hlow⟩ :=
      csetitem_top_shape htopf hok
    rw [← hmid] at hD hb'
    have hb : b' = true := by
      rw [hb']
      simp
    refine ⟨v, hfind, ?_, D, ?_, hkD⟩
    · show (getitemN k ch).1 = .ok v
      rw [hgn]
    · show (topCache (getitemN k ch).2.1).cache = D ++ [(k, ⟨true, v⟩)]
      have h2 : (getitemN k ch).2.1 =
          (csetitem (d + 1) k v (!false)
            (sendBsNondirties [(k, v)] (recursPop (d + 1) k ch).2)).2.1 := by
        rw [hgn]
      rw [h2, hD, hb]
  · -- case B: absent from the caches, present in the open store
    intro l v hin hdb hg
    have hrec := recursPop_notin_store (d + 1) ch hin hdb hg
    have hp1 : (recursPop (d + 1) k ch).1 = .ok (v, true) := by rw [hrec]
    have hp2 : (recursPop (d + 1) k ch).2 = ch := by rw [hrec]
    have hok := csetitem_after_probe_ok k k v (!true) [(k, v)] ch
      hinv hcaps hp1
    have hgn : getitemN k ch =
        (.ok v,
         (csetitem (d + 1) k v (!true)
           (sendBsNondirties [(k, v)] (recursPop (d + 1) k ch).2)).2.1,
         (csetitem (d + 1) k v (!true)
           (sendBsNondirties [(k, v)] (recursPop (d + 1) k ch).2)).2.2) := by
      simp only [getitemN, hp1, hok]
    have htopf : hasKey k (topCache (sendBsNondirties [(k, v)]
        (recursPop (d + 1) k ch).2)).cache = false := by
      rw [topCache_sendBs, hp2]
      exact hasKey_top_of_inCaches_false hin
    have hmk : (topCache (sendBsNondirties [(k, v)]
        (recursPop (d + 1) k ch).2)).modify_key =
        (topCache ch).modify_key := by
      rw [topCache_sendBs, hp2]
    have hmid := chain_succ (sendBsNondirties [(k, v)]
      (recursPop (d + 1) k ch).2)
    rw [hmid] at hok
    obtain ⟨D, b', hD, hkD, hlen, hb', hcap', hlow⟩ :=
      csetitem_top_shape htopf hok
    rw [← hmid] at hD hb'
    rw [hmk] at hb'
    have h3 : (getitemN k ch).2.2 =
        (csetitem (d + 1) k v (!true)
          (sendBsNondirties [(k, v)] (recursPop (d + 1) k ch).2)).2.2 := by
      rw [hgn]
    rw [← h3] at hb'
    simp only [Bool.not_true] at hb'
    refine ⟨?_, D, b', ?_, hkD, hb'⟩
    · show (getitemN k ch).1 = .ok v
      rw [hgn]
    · show (topCache (getitemN k ch).2.1).cache = D ++ [(k, ⟨b', v⟩)]
      have h2 : (getitemN k ch).2.1 =
          (csetitem (d + 1) k v (!true)
            (sendBsNondirties [(k, v)] (recursPop (d + 1) k ch).2)).2.1 := by
        rw [hgn]
      rw [h2, hD]
  · -- case C: absent everywhere, open store
    intro l hin hdb hg
    have hrec := recursPop_notin_miss (d + 1) ch hin hdb hg
    have hp1 : (recursPop (d + 1) k ch).1 = .error .cacheMiss := by rw [hrec]
    have hp2 : (recursPop (d + 1) k ch).2 = ch := by rw [hrec]
    have hgn : getitemN k ch = (.error .cacheMiss, ch, []) := by
      simp only [getitemN, hp1, hp2]
    show ((getitemN k ch).1, (getitemN k ch).2.1) = (.error .cacheMiss, ch)
    rw [hgn]
  · -- case C: absent from the caches, no store at all
    intro hin hso
    have hrec := recursPop_notin_nostore (d + 1) ch hin hso
    have hp1 : (recursPop (d + 1) k ch).1 = .error .cacheMiss := by rw [hrec]
    have hp2 : (recursPop (d + 1) k ch).2 = ch := by rw [hrec]
    have hgn : getitemN k ch = (.error .cacheMiss, ch, []) := by
      simp only [getitemN, hp1, hp2]
    show ((getitemN k ch).1, (getitemN k ch).2.1) = (.error .cacheMiss, ch)
    rw [hgn]

/-- C1, amended: witness. -/
theorem c1_amended_witness :
    chainInv (Chain.consC ⟨2, [("x", ⟨true, 7⟩)], none⟩
      (.bsC ⟨2, some [("a", 5)], []⟩) : Chain 1) ∧
    capsPos (Chain.consC ⟨2, [("x", ⟨true, 7⟩)], none⟩
      (.bsC ⟨2, some [("a", 5)], []⟩) : Chain 1) ∧
    (((topCache (Chain.consC ⟨2, [("x", ⟨true, 7⟩)], none⟩
      (.bsC ⟨2, some [("a", 5)], []⟩) : Chain 1)).cache.map Prod.fst).Nodup) ∧
    (inCaches "x" (Chain.consC ⟨2, [("x", ⟨true, 7⟩)], none⟩
        (.bsC ⟨2, some [("a", 5)], []⟩) : Chain 1) = true →
      ∃ v, findVal "x" (Chain.consC ⟨2, [("x", ⟨true, 7⟩)], none⟩
          (.bsC ⟨2, some [("a", 5)], []⟩) : Chain 1) = some v ∧
        (getitem "x" (Chain.consC ⟨2, [("x", ⟨true, 7⟩)], none⟩
          (.bsC ⟨2, some [("a", 5)], []⟩) : Chain 1)).1 = .ok v ∧
        ∃ D, (topCache (getitem "x" (Chain.consC ⟨2, [("x", ⟨true, 7⟩)], none⟩
            (.bsC ⟨2, some [("a", 5)], []⟩) : Chain 1)).2).cache =
              D ++ [("x", ⟨true, v⟩)] ∧
          hasKey "x" D = false) :=
  ⟨by decide, by decide, by decide,
   (c1_amended "x" (Chain.consC ⟨2, [("x", ⟨true, 7⟩)], none⟩
     (.bsC ⟨2, some [("a", 5)], []⟩) : Chain 1)
     (by decide) (by decide) (by decide)).1⟩

/-- Refreshing the nondirty map leaves the top layer alone and only
touches the terminal store's nondirty map below. -/
theorem sendBs_consC (m : List (Key × Nat)) (c : CacheData) (low : Chain d) :
    ∃ low', sendBsNondirties m (.consC c low) = .consC c low' ∧
      layerList low' = layerList low ∧ storeDb low' = storeDb low := by
  refine ⟨lowerChain (sendBsNondirties m (.consC c low)), ?_, ?_, ?_⟩
  · have h := chain_succ (sendBsNondirties m (.consC c low))
    rw [topCache_sendBs] at h
    exact h
  · exact layerList_lowerChain_sendBs m (.consC c low)
  · have h1 : storeDb (lowerChain (sendBsNondirties m (.consC c low))) =
        storeDb (sendBsNondirties m (.consC c low)) :=
      (storeDb_succ _).symm
    rw [h1, storeDb_sendBs]
    exact storeDb_succ _

/-- A Lookup of a key sitting at the MRU end of a top layer with room to
spare: it pops the entry and reinserts it in place — the value is returned
and no layer's key order nor the store contents change. -/
theorem getitemN_hit_top {d : Nat} (k : Key) (v : Nat) (e : CVal)
    (D : List (Key × CVal)) (ch : Chain (d + 1))
    (hD : (topCache ch).cache = D ++ [(k, e)])
    (hkD : hasKey k D = false)
    (hv : e.val = v)
    (hroom : (D.length : Int) + 1 ≤ (topCache ch).capacity) :
    (getitemN k ch).1 = .ok v ∧
    layerKeys (getitemN k ch).2.1 = layerKeys ch ∧
    storeDb (getitemN k ch).2.1 = storeDb ch := by
  match ch with
  | .consC c low =>
    simp only [topCache] at hD hroom
    have hpop2 : odPop k c.cache = some (e, D) := by
      rw [hD]
      exact odPop_append_last hkD
    have hrec : recursPop (d + 1) k (.consC c low) =
        (.ok (e.val, false), .consC { c with cache := D } low) := by
      rw [recursPop]
      simp only [hpop2]
    obtain ⟨low', hmid, hll, hsd⟩ :=
      sendBs_consC [(k, e.val)] { c with cache := D } low
    have hpopD : odPop k D = none := odPop_eq_none_of_hasKey_false hkD
    have hn0 : (((D.length : Int) + 1 - c.capacity)).toNat = 0 := by
      omega
    have hq2 : csetitem (d + 1) k e.val (!false)
        (.consC { c with cache := D } low') =
        (.ok (),
         .consC (modifyDirtyIfNotified
           { capacity := c.capacity,
             cache := odSet k ⟨!false, e.val⟩ D,
             modify_key := applyNotifs [] c.modify_key }) low', []) := by
      simp only [csetitem, hpopD, hn0, evictLoop]
    have hgn2 : getitemN k (.consC c low) =
        (.ok e.val,
         .consC (modifyDirtyIfNotified
           { capacity := c.capacity,
             cache := odSet k ⟨!false, e.val⟩ D,
             modify_key := applyNotifs [] c.modify_key }) low', []) := by
      simp only [getitemN, hrec, hmid, hq2]
    refine ⟨?_, ?_, ?_⟩
    · rw [show (getitemN k (.consC c low)).1 = .ok e.val by rw [hgn2], hv]
    · have h2 : (getitemN k (.consC c low)).2.1 =
          .consC (modifyDirtyIfNotified
            { capacity := c.capacity,
              cache := odSet k ⟨!false, e.val⟩ D,
              modify_key := applyNotifs [] c.modify_key }) low' := by
        rw [hgn2]
      rw [h2, layerKeys, layerKeys]
      simp only [layerList, List.map_cons]
      rw [hll]
      have hhead : cacheKeys (modifyDirtyIfNotified
          { capacity := c.capacity,
            cache := odSet k ⟨!false, e.val⟩ D,
            modify_key := applyNotifs [] c.modify_key }) = cacheKeys c := by
        rw [cacheKeys, cacheKeys, modifyDirty_keys]
        show (odSet k ⟨!false, e.val⟩ D).map Prod.fst = c.cache.map Prod.fst
        rw [odSet_of_hasKey_false hkD, hD]
        simp
      rw [hhead]
    · have h2 : (getitemN k (.consC c low)).2.1 =
          .consC (modifyDirtyIfNotified
            { capacity := c.capacity,
              cache := odSet k ⟨!false, e.val⟩ D,
              modify_key := applyNotifs [] c.modify_key }) low' := by
        rw [hgn2]
      rw [h2]
      have h3 : storeDb (.consC (modifyDirtyIfNotified
          { capacity := c.capacity,
            cache := odSet k ⟨!false, e.val⟩ D,
            modify_key := applyNotifs [] c.modify_key }) low' : Chain (d + 1)) =
          storeDb low' := storeDb_succ _
      have h4 : storeDb (.consC c low : Chain (d + 1)) = storeDb low :=
        storeDb_succ _
      rw [h3, h4, hsd]

/-! ### C9: a second Lookup of the same key is a no-op -/

/-- C9.  On a chain whose top layer is duplicate-free (as a real
`OrderedDict` is): if `Lookup k` succeeds with value `v`, a second
`Lookup k` succeeds with the same value and observes no ordering change in
any cache layer and no change to the store contents. -/
theorem c9_lookup_idempotent {d : Nat} (k : Key) (v : Nat) (ch : Chain (d + 1))
    (hnd : ((topCache ch).cache.map Prod.fst).Nodup)
    (hok : (getitem k ch).1 = .ok v) :
    (getitem k (getitem k ch).2).1 = .ok v ∧
    layerKeys (getitem k (getitem k ch).2).2 = layerKeys (getitem k ch).2 ∧
    storeDb (getitem k (getitem k ch).2).2 = storeDb (getitem k ch).2 := by
  replace hok : (getitemN k ch).1 = .ok v := hok
  rcases hp : (recursPop (d + 1) k ch).1 with e | ⟨item, fb⟩
  · have h1 : (getitemN k ch).1 = .error e := by simp only [getitemN, hp]
    rw [h1] at hok
    simp at hok
  · rcases hq : (csetitem (d + 1) k item (!fb)
        (sendBsNondirties [(k, item)] (recursPop (d + 1) k ch).2)).1 with e | u
    · have h1 : (getitemN k ch).1 = .error e := by simp only [getitemN, hp, hq]
      rw [h1] at hok
      simp at hok
    · cases u
      have hgn1 : getitemN k ch =
          (.ok item,
           (csetitem (d + 1) k item (!fb)
             (sendBsNondirties [(k, item)] (recursPop (d + 1) k ch).2)).2.1,
           (csetitem (d + 1) k item (!fb)
             (sendBsNondirties [(k, item)] (recursPop (d + 1) k ch).2)).2.2) := by
        simp only [getitemN, hp, hq]
      have hv : item = v := by
        rw [hgn1] at hok
        simpa using hok
      subst item
      have htopf : hasKey k (topCache (sendBsNondirties [(k, v)]
          (recursPop (d + 1) k ch).2)).cache = false := by
        rw [topCache_sendBs]
        exact (recursPop_top_nokey k ch hnd).1
      have hmid := chain_succ (sendBsNondirties [(k, v)]
        (recursPop (d + 1) k ch).2)
      rw [hmid] at hq
      obtain ⟨D, b', hD, hkD, hlen, hb', hcap', hlow⟩ :=
        csetitem_top_shape htopf hq
      rw [← hmid] at hD hcap'
      have h2 : (getitemN k ch).2.1 =
          (csetitem (d + 1) k v (!fb)
            (sendBsNondirties [(k, v)] (recursPop (d + 1) k ch).2)).2.1 := by
        rw [hgn1]
      have hroom : (D.length : Int) + 1 ≤
          (topCache ((getitemN k ch).2.1)).capacity := by
        rw [h2, hcap']
        exact hlen
      have hD1 : (topCache ((getitemN k ch).2.1)).cache =
          D ++ [(k, (⟨b', v⟩ : CVal))] := by
        rw [h2]
        exact hD
      exact getitemN_hit_top k v ⟨b', v⟩ D ((getitemN k ch).2.1)
        hD1 hkD rfl hroom

/-- C9, witness. -/
theorem c9_witness :
    (((topCache (Chain.consC ⟨2, [("x", ⟨true, 7⟩)], none⟩
      (.bsC ⟨2, some [("a", 5)], []⟩) : Chain 1)).cache.map Prod.fst).Nodup) ∧
    (getitem "a" (Chain.consC ⟨2, [("x", ⟨true, 7⟩)], none⟩
      (.bsC ⟨2, some [("a", 5)], []⟩) : Chain 1)).1 = .ok 5 ∧
    (getitem "a" (getitem "a" (Chain.consC ⟨2, [("x", ⟨true, 7⟩)], none⟩
      (.bsC ⟨2, some [("a", 5)], []⟩) : Chain 1)).2).1 = .ok 5 ∧
    layerKeys (getitem "a" (getitem "a" (Chain.consC ⟨2, [("x", ⟨true, 7⟩)], none⟩
      (.bsC ⟨2, some [("a", 5)], []⟩) : Chain 1)).2).2 =
      layerKeys (getitem "a" (Chain.consC ⟨2, [("x", ⟨true, 7⟩)], none⟩
        (.bsC ⟨2, some [("a", 5)], []⟩) : Chain 1)).2 ∧
    storeDb (getitem "a" (getitem "a" (Chain.consC ⟨2, [("x", ⟨true, 7⟩)], none⟩
      (.bsC ⟨2, some [("a", 5)], []⟩) : Chain 1)).2).2 =
      storeDb (getitem "a" (Chain.consC ⟨2, [("x", ⟨true, 7⟩)], none⟩
        (.bsC ⟨2, some [("a", 5)], []⟩) : Chain 1)).2 :=
  ⟨by decide, by decide,
   c9_lookup_idempotent "a" 5 (Chain.consC ⟨2, [("x", ⟨true, 7⟩)], none⟩
     (.bsC ⟨2, some [("a", 5)], []⟩) : Chain 1) (by decide) (by decide)⟩

/-! ### C7 (amended): mark consumption with and without a matching key -/

/-- C7, amended.  An insertion into a layer whose pending dirty-mark slot
holds `k''`: when `k''` is absent from the layer at consumption time, every
existing entry's dirty flag is unchanged but the slot is NOT cleared (the
swallowed `KeyError` skips the `self._modify_key = None` assignment); when
`k''` is present, that entry's dirty flag flips to `true` and the slot is
cleared.  Stated for a fresh key on a standalone layer with room, so the
insertion itself fires no notifications. -/
theorem c7_amended (c : CacheData) (k k'' : Key) (v : Nat) (b : Bool)
    (hmk : c.modify_key = some k'')
    (hfresh : hasKey k c.cache = false)
    (hlen : (c.cache.length : Int) + 1 ≤ c.capacity) :
    (csetitem 1 k v b (.consC c .nilC)).1 = .ok () ∧
    (hasKey k'' (c.cache ++ [(k, ⟨b, v⟩)]) = false →
      topCache (csetitem 1 k v b (.consC c .nilC)).2.1 =
        ⟨c.capacity, c.cache ++ [(k, ⟨b, v⟩)], some k''⟩) ∧
    (∀ e, odGet k'' (c.cache ++ [(k, ⟨b, v⟩)]) = some e →
      topCache (csetitem 1 k v b (.consC c .nilC)).2.1 =
        ⟨c.capacity, odSet k'' ⟨true, e.val⟩ (c.cache ++ [(k, ⟨b, v⟩)]),
         none⟩) := by
  have hpop := odPop_eq_none_of_hasKey_false (l := c.cache) (k := k) hfresh
  have hn0 : (((c.cache.length : Int) + 1 - c.capacity)).toNat = 0 := by omega
  have hset := odSet_of_hasKey_false (v := (⟨b, v⟩ : CVal)) hfresh
  have hres : csetitem 1 k v b (.consC c .nilC) =
      (.ok (), .consC (modifyDirtyIfNotified
        { capacity := c.capacity, cache := c.cache ++ [(k, ⟨b, v⟩)],
          modify_key := some k'' }) .nilC, []) := by
    simp only [csetitem, hpop, hn0, evictLoop, hset]
    simp [applyNotifs, hmk]
  refine ⟨?_, ?_, ?_⟩
  · rw [hres]
  · intro habs
    rw [hres]
    show modifyDirtyIfNotified
      { capacity := c.capacity, cache := c.cache ++ [(k, ⟨b, v⟩)],
        modify_key := some k'' } = _
    rw [modifyDirtyIfNotified]
    simp only [odGet_eq_none_of_hasKey_false habs]
  · intro e hg
    rw [hres]
    show modifyDirtyIfNotified
      { capacity := c.capacity, cache := c.cache ++ [(k, ⟨b, v⟩)],
        modify_key := some k'' } = _
    rw [modifyDirtyIfNotified]
    simp only [hg]

/-- C7, amended: witness (the slot holding the absent key `z` survives the
insertion of `b`). -/
theorem c7_amended_witness :
    (⟨2, [("a", ⟨false, 1⟩)], some "z"⟩ : CacheData).modify_key = some "z" ∧
    hasKey "b" (⟨2, [("a", ⟨false, 1⟩)], some "z"⟩ : CacheData).cache = false ∧
    (((⟨2, [("a", ⟨false, 1⟩)], some "z"⟩ :
        CacheData).cache.length : Int) + 1 ≤ 2) ∧
    ((csetitem 1 "b" 2 true (.consC
        (⟨2, [("a", ⟨false, 1⟩)], some "z"⟩ : CacheData) .nilC)).1 = .ok () ∧
     (hasKey "z" ((⟨2, [("a", ⟨false, 1⟩)], some "z"⟩ : CacheData).cache ++
        [("b", ⟨true, 2⟩)]) = false →
      topCache (csetitem 1 "b" 2 true (.consC
          (⟨2, [("a", ⟨false, 1⟩)], some "z"⟩ : CacheData) .nilC)).2.1 =
        ⟨2, (⟨2, [("a", ⟨false, 1⟩)], some "z"⟩ : CacheData).cache ++
          [("b", ⟨true, 2⟩)], some "z"⟩) ∧
     (∀ e, odGet "z" ((⟨2, [("a", ⟨false, 1⟩)], some "z"⟩ :
          CacheData).cache ++ [("b", ⟨true, 2⟩)]) = some e →
      topCache (csetitem 1 "b" 2 true (.consC
          (⟨2, [("a", ⟨false, 1⟩)], some "z"⟩ : CacheData) .nilC)).2.1 =
        ⟨2, odSet "z" ⟨true, e.val⟩
          ((⟨2, [("a", ⟨false, 1⟩)], some "z"⟩ : CacheData).cache ++
            [("b", ⟨true, 2⟩)]), none⟩)) :=
  ⟨rfl, by decide, by decide,
   c7_amended ⟨2, [("a", ⟨false, 1⟩)], some "z"⟩ "b" "z" 2 true rfl
     (by decide) (by decide)⟩

end CacheSpec
